import Mathlib

/-!
Verification development for the KCT corpus annotation-resolution engine
(`scripts/target.py`): a shallow embedding of the tokenizer (`tokenize`)
and the two annotation resolvers (`create_tok_span_anno_target`,
`create_tok_span_anno_achieved`), together with theorems about the
invariants the surrounding pipeline relies on.

Python strings are modelled as Lean `String`s (sequences of unicode code
points, matching Python semantics for indexing, slicing and splitting).
Python exceptions (IndexError, ValueError, NameError) are modelled by
`Option`: a function that would raise returns `none`.
-/

namespace KCT

/-! ## Python-style string primitives -/

/-- Number of occurrences of character `c` in `s` (Python `s.count(c)` for a
single-character needle). -/
def countChar (s : String) (c : Char) : Nat := s.data.count c

/-- Substring test on char lists: is `pat` a contiguous infix of `l`?
Models Python `pat in hay`. -/
def isSubL (pat : List Char) : List Char → Bool
  | [] => pat.isEmpty
  | c :: r => pat.isPrefixOf (c :: r) || isSubL pat r

/-- Python `needle in hay` (substring containment). -/
def pyIn (needle hay : String) : Bool := isSubL needle.data hay.data

/-- Clamp a Python slice index to `[0, len]` (negative indices count from the
end, as in Python slicing). -/
def pyClamp (len : Nat) (i : Int) : Nat :=
  if i < 0 then ((len : Int) + i).toNat else min len i.toNat

/-- Python slice `s[a:b]` with full clamping semantics. -/
def pySlice (s : String) (a b : Int) : String :=
  ⟨(s.data.take (pyClamp s.data.length b)).drop (pyClamp s.data.length a)⟩

/-- Python single-char index `s[i]`: negative indices wrap from the end,
out-of-range indexing raises (`none`). -/
def pyGetChar (s : String) (i : Int) : Option Char :=
  let n := s.data.length
  if i < 0 then
    if (0 : Int) ≤ (n : Int) + i then s.data.get? ((n : Int) + i).toNat else none
  else
    s.data.get? i.toNat

/-- Python `s[1:]`. -/
def strTail (s : String) : String := ⟨s.data.tail⟩

/-- Python `s[:len(s)-1]` (equivalently `s[:-1]`): drop the last character. -/
def strInit (s : String) : String := ⟨s.data.dropLast⟩

/-- Python `int(c)` for a single character: its digit value, or an error. -/
def charToDigit (c : Char) : Option Nat :=
  if c.isDigit then some (c.toNat - '0'.toNat) else none

/-- Python `int(s)` restricted to the unsigned-decimal shapes reachable here:
a nonempty all-digit string parses, everything else raises (`none`). -/
def pyIntOfStr (s : String) : Option Nat :=
  if s.data ≠ [] ∧ s.data.all (·.isDigit) then
    some (s.data.foldl (fun acc c => 10 * acc + (c.toNat - '0'.toNat)) 0)
  else none

/-- Worker for whitespace splitting: `cur` is the current word, reversed. -/
def splitWsGo (cur : List Char) : List Char → List (List Char)
  | [] => if cur.isEmpty then [] else [cur.reverse]
  | c :: r =>
    if c.isWhitespace then
      if cur.isEmpty then splitWsGo [] r else cur.reverse :: splitWsGo [] r
    else splitWsGo (c :: cur) r

/-- Python `s.split()`: split on runs of whitespace, discarding empties. -/
def pySplitWs (s : String) : List String :=
  (splitWsGo [] s.data).map (fun l => ⟨l⟩)

/-- Worker for single-character splitting, keeping empty pieces. -/
def splitChGo (sep : Char) (cur : List Char) : List Char → List (List Char)
  | [] => [cur.reverse]
  | c :: r =>
    if c = sep then cur.reverse :: splitChGo sep [] r
    else splitChGo sep (c :: cur) r

/-- Python `s.split(sep)` for a one-character separator (keeps empties,
always returns at least one piece). -/
def pySplitOn (sep : Char) (s : String) : List String :=
  (splitChGo sep [] s.data).map (fun l => ⟨l⟩)

theorem splitChGo_ne_nil (sep : Char) (cur l : List Char) :
    splitChGo sep cur l ≠ [] := by
  induction l generalizing cur with
  | nil => simp [splitChGo]
  | cons c r ih =>
    simp only [splitChGo]
    split
    · simp
    · exact ih _

theorem pySplitOn_ne_nil (sep : Char) (s : String) : pySplitOn sep s ≠ [] := by
  simp [pySplitOn, splitChGo_ne_nil]

/-! ## A generic left-to-right substitution / scan engine

Python's `re.sub` and `re.findall` scan the subject left to right: at each
position the alternatives are tried in order; on a match the engine emits
(or replaces) the matched text and resumes right after it, otherwise it
advances one character.  Every matcher below consumes at least one
character, so fuel `l.length` is always sufficient. -/

/-- Python `re.findall`: collect the matches of matcher `m`, scanning left to right. -/
def findAllM (m : List Char → Option (String × List Char)) :
    Nat → List Char → List String
  | 0, _ => []
  | _, [] => []
  | fuel + 1, c :: r =>
    match m (c :: r) with
    | some (s, rest) => s :: findAllM m fuel rest
    | none => findAllM m fuel r

/-- Python `re.findall` over a string. -/
def findAllS (m : List Char → Option (String × List Char)) (s : String) :
    List String :=
  findAllM m s.data.length s.data

/-- Python `re.sub`: replace the matches of matcher `m` (the matcher returns the
replacement text and the rest of the input), scanning left to right. -/
def subAllM (m : List Char → Option (List Char × List Char)) :
    Nat → List Char → List Char
  | 0, l => l
  | _, [] => []
  | fuel + 1, c :: r =>
    match m (c :: r) with
    | some (rep, rest) => rep ++ subAllM m fuel rest
    | none => c :: subAllM m fuel r

/-- Python `re.sub` with a literal (regex-free) pattern, over strings; this is also
the semantics of every escaped-literal regex in the source. -/
def replaceAll (pat rep : String) (s : String) : String :=
  ⟨subAllM
    (fun l =>
      if pat.data ≠ [] ∧ pat.data.isPrefixOf l then
        some (rep.data, l.drop pat.data.length)
      else none)
    s.data.length s.data⟩

/-- Matcher for `\{.\}` (a brace pair around any single non-newline char). -/
def mCurlyAny : List Char → Option (String × List Char)
  | '{' :: c :: '}' :: r => if c ≠ '\n' then some (⟨['{', c, '}']⟩, r) else none
  | _ => none

/-- Matcher for `\{[A-Z]\}`. -/
def mCurlyUpper : List Char → Option (String × List Char)
  | '{' :: c :: '}' :: r =>
    if 'A' ≤ c ∧ c ≤ 'Z' then some (⟨['{', c, '}']⟩, r) else none
  | _ => none

/-- Matcher for `\{[0-9]\}`. -/
def mCurlyDigit : List Char → Option (String × List Char)
  | '{' :: c :: '}' :: r => if c.isDigit then some (⟨['{', c, '}']⟩, r) else none
  | _ => none

/-- Turn a findall-style matcher into a delete-the-match substitution
(`re.sub(pattern, '', s)`). -/
def subDel (m : List Char → Option (String × List Char)) (s : String) : String :=
  ⟨subAllM (fun l => (m l).map (fun p => (([] : List Char), p.2))) s.data.length s.data⟩

/-! ## Tokenizer (`tokenize`, target.py lines 35-114)

The function applies a fixed chain of `re.sub` substitutions, splits on
whitespace, re-merges bracket groups (indexing `i+1`/`i+2`, which can raise
IndexError — modelled by `none`), and then runs the unbalanced-bracket drop
pass twice. -/

/-- Matcher for `\[ *p` → `"[p "` (re-glue of punctuation after an opening
bracket, e.g. `re.sub(r'\[ *\.', '[. ', text)`). -/
def mBrL (p : Char) : List Char → Option (List Char × List Char)
  | '[' :: r =>
    let sp := r.takeWhile (· = ' ')
    match r.drop sp.length with
    | q :: rr => if q = p then some (['[', p, ' '], rr) else none
    | [] => none
  | _ => none

/-- Matcher for `p *\]` → `" p]"` (re-glue of punctuation before a closing
bracket, e.g. `re.sub(r'\. *\]', ' .]', text)`). -/
def mBrR (p : Char) : List Char → Option (List Char × List Char)
  | c :: r =>
    if c = p then
      let sp := r.takeWhile (· = ' ')
      match r.drop sp.length with
      | q :: rr => if q = ']' then some ([' ', p, ']'], rr) else none
      | [] => none
    else none
  | [] => none

/-- One `re.sub` step with matcher `m`, over strings. -/
def subS (m : List Char → Option (List Char × List Char)) (s : String) : String :=
  ⟨subAllM m s.data.length s.data⟩

/-- The full substitution chain of `tokenize` (lines 44-90), in source order. -/
def tokSubs (text : String) : String :=
  let t := replaceAll "." " . " text
  let t := replaceAll "," " , " t
  let t := replaceAll ":" " : " t
  let t := replaceAll "?" " ? " t
  let t := replaceAll "!" " ! " t
  let t := replaceAll "(" "( " t
  let t := replaceAll ")" " )" t
  let t := subS (mBrL '.') t
  let t := subS (mBrL ',') t
  let t := subS (mBrL ':') t
  let t := subS (mBrL '?') t
  let t := subS (mBrL '!') t
  let t := subS (mBrR '.') t
  let t := subS (mBrR ',') t
  let t := subS (mBrR ':') t
  let t := subS (mBrR '?') t
  let t := subS (mBrR '!') t
  let t := replaceAll "&#34;" " \" " t
  let t := replaceAll ", _" ",_" t
  let t := replaceAll ". _" "._" t
  let t := replaceAll "\" _" "\"_" t
  let t := replaceAll ": _" ":_" t
  let t := replaceAll "_ ," "_," t
  let t := replaceAll "._ \"" "._\"" t
  let t := replaceAll ":_ \"" ":_\"" t
  let t := replaceAll "_Dann" "Dann" t
  let t := replaceAll ",_ Dort" ",_Dort" t
  let t := replaceAll "._ Tim" "._Tim" t
  let t := replaceAll "/[" " / [" t
  let t := replaceAll "Ente[" "Ente [" t
  let t := replaceAll "bei[" "bei [" t
  let t := replaceAll "denn[" "denn [" t
  let t := replaceAll "du[" "du [" t
  let t := replaceAll "weglaufen[" "weglaufen [" t
  let t := replaceAll "würde[" "würde [" t
  let t := replaceAll "fern[sehn §]" "fern [sehn §]" t
  let t := replaceAll "ein[," "ein [," t
  let t := replaceAll "[§/]" "[§ /]" t
  t

/-- The bracket re-merge loop (lines 97-102): `for i in range(len(tokenized))`,
joining element `i` with element `i+1` (and possibly `i+2`) when it contains
an opening bracket.  The list's length never changes; accessing one past the
end raises IndexError (`none`).  Fueled recursion; `fuel = length` suffices. -/
def mergeGo : Nat → List String → Nat → Option (List String)
  | 0, l, _ => some l
  | fuel + 1, l, i =>
    if h : i < l.length then
      let t := l.get ⟨i, h⟩
      if pyIn "[" t then
        match l.get? (i + 1) with
        | none => none
        | some t1 =>
          if pyIn "[" t1 then
            match l.get? (i + 2) with
            | none => none
            | some t2 => mergeGo fuel (l.set i (t ++ " " ++ t1 ++ " " ++ t2)) (i + 1)
          else mergeGo fuel (l.set i (t ++ " " ++ t1)) (i + 1)
      else mergeGo fuel l (i + 1)
    else some l

/-- Does the element have unbalanced brackets (`i.count("[") != i.count("]")`)? -/
def unbal (s : String) : Bool := countChar s '[' != countChar s ']'

/-- One `for i in tokenized: if unbal(i): tokenized.remove(i)` pass, with
CPython's iterate-while-mutating semantics: an internal index advances by one
each step against the current list, `remove` deletes the first equal element.
Fueled; `fuel = length` suffices since `length - idx` shrinks each step. -/
def dropGo : Nat → List String → Nat → List String
  | 0, l, _ => l
  | fuel + 1, l, idx =>
    if h : idx < l.length then
      let x := l.get ⟨idx, h⟩
      if unbal x then dropGo fuel (l.erase x) (idx + 1)
      else dropGo fuel l (idx + 1)
    else l

/-- One drop pass over the whole list. -/
def dropPass (l : List String) : List String := dropGo l.length l 0

/-- The merge stage of `tokenize`: substitutions, whitespace split, and the
bracket re-merge (the part that can raise). -/
def tokMerged (text : String) : Option (List String) :=
  let tokenized := pySplitWs (tokSubs text)
  mergeGo tokenized.length tokenized 0

/-- Function `tokenize` (lines 35-114): `none` models an uncaught IndexError. -/
def tokenize (text : String) : Option (List String) :=
  (tokMerged text).map (fun l => dropPass (dropPass l))

/-! ## Symbol patterns of the resolvers

`re.findall` with an alternation of groups; alternatives are tried in source
order (their first characters are pairwise distinct, so the order is also
immaterial).  A match returns the matched text. -/

/-- Pattern `(\*)|(§)|(--)|(=)|({.})` (target.py line 202). -/
def mT1 : List Char → Option (String × List Char)
  | '*' :: r => some ("*", r)
  | '§' :: r => some ("§", r)
  | '-' :: '-' :: r => some ("--", r)
  | '=' :: r => some ("=", r)
  | '{' :: c :: '}' :: r => if c ≠ '\n' then some (⟨['{', c, '}']⟩, r) else none
  | _ => none

/-- Pattern `(\*)|(§)|(--)|(=)|({.})|(~)` (target.py line 210). -/
def mT2 : List Char → Option (String × List Char)
  | '*' :: r => some ("*", r)
  | '§' :: r => some ("§", r)
  | '-' :: '-' :: r => some ("--", r)
  | '=' :: r => some ("=", r)
  | '{' :: c :: '}' :: r => if c ≠ '\n' then some (⟨['{', c, '}']⟩, r) else none
  | '~' :: r => some ("~", r)
  | _ => none

/-- Pattern `(\*)|(§)|(--)|(=)|({.})|(~)|(_)` (target.py line 270). -/
def mT3 : List Char → Option (String × List Char)
  | '*' :: r => some ("*", r)
  | '§' :: r => some ("§", r)
  | '-' :: '-' :: r => some ("--", r)
  | '=' :: r => some ("=", r)
  | '{' :: c :: '}' :: r => if c ≠ '\n' then some (⟨['{', c, '}']⟩, r) else none
  | '~' :: r => some ("~", r)
  | '_' :: r => some ("_", r)
  | _ => none

/-- Pattern `(\*)|(_)|(--)|(~)|(\{[A-Z]\})` (target.py line 797). -/
def mA1 : List Char → Option (String × List Char)
  | '*' :: r => some ("*", r)
  | '_' :: r => some ("_", r)
  | '-' :: '-' :: r => some ("--", r)
  | '~' :: r => some ("~", r)
  | '{' :: c :: '}' :: r =>
    if 'A' ≤ c ∧ c ≤ 'Z' then some (⟨['{', c, '}']⟩, r) else none
  | _ => none

/-- Pattern `(_)|(--)|(~)|(\{[A-Z]\})` (target.py lines 675, 716, 762). -/
def mARep : List Char → Option (String × List Char)
  | '_' :: r => some ("_", r)
  | '-' :: '-' :: r => some ("--", r)
  | '~' :: r => some ("~", r)
  | '{' :: c :: '}' :: r =>
    if 'A' ≤ c ∧ c ≤ 'Z' then some (⟨['{', c, '}']⟩, r) else none
  | _ => none

/-- Pattern `(_)|(--)|(~)|(\{.\})` (target.py line 1131). -/
def mABr : List Char → Option (String × List Char)
  | '_' :: r => some ("_", r)
  | '-' :: '-' :: r => some ("--", r)
  | '~' :: r => some ("~", r)
  | '{' :: c :: '}' :: r => if c ≠ '\n' then some (⟨['{', c, '}']⟩, r) else none
  | _ => none

/-- Greedy `\[§.+\]` → `''` (target.py line 1194): from a `[§` the greedy
`.+` runs to the end of the line and backtracks to the last `]`, which must
leave at least one character between `[§` and `]`. -/
def mBrPgfGreedy : List Char → Option (List Char × List Char)
  | '[' :: '§' :: rest =>
    let seg := rest.takeWhile (· ≠ '\n')
    match seg.enum.foldl
        (fun acc p => if 1 ≤ p.1 ∧ p.2 = ']' then some p.1 else acc) none with
    | some j => some ([], rest.drop (j + 1))
    | none => none
  | _ => none

/-- Python `s.split(pat)[0]` for a multi-character separator: the prefix
before the first occurrence of `pat` (the whole string when absent). -/
def strBeforeSubGo (pat : List Char) : Nat → List Char → List Char
  | 0, _ => []
  | _, [] => []
  | f + 1, c :: r =>
    if pat ≠ [] ∧ pat.isPrefixOf (c :: r) then []
    else c :: strBeforeSubGo pat f r

def strBeforeSub (pat s : String) : String :=
  ⟨strBeforeSubGo pat.data s.data.length s.data⟩

/-! ## Normalization chains -/

/-- target.py lines 220-224 / 302-306 / 333-337: delete `*`, delete `§`,
delete `--`, turn `=` into `-`, delete `{.}`.  Keeps `~` and `_`. -/
def normT5 (s : String) : String :=
  subDel mCurlyAny
    (replaceAll "=" "-" (replaceAll "--" "" (replaceAll "§" "" (replaceAll "*" "" s))))

/-- target.py lines 220-225 / 280-285: `normT5` followed by deleting `~`. -/
def normT6 (s : String) : String := replaceAll "~" "" (normT5 s)

/-- achieved normalization (target.py lines 686-689, 727-730, 772-775,
806-809): delete `_`, delete `--`, turn `~` into `-`, delete `\{[A-Z]\}`. -/
def normAch (s : String) : String :=
  subDel mCurlyUpper (replaceAll "~" "-" (replaceAll "--" "" (replaceAll "_" "" s)))

/-- achieved bracket normalization (target.py lines 1141-1144, 1164-1167):
delete `_`, delete `--`, turn `~` into `-`, delete `\{.\}`. -/
def normAchBr (s : String) : String :=
  subDel mCurlyAny (replaceAll "~" "-" (replaceAll "--" "" (replaceAll "_" "" s)))

/-- Python `'\x7b' + c + '\x7d'`. -/
def tagOfChar (c : Char) : String := "\x7b" ++ String.singleton c ++ "\x7d"

/-- Python `'\x7b' + s + '\x7d'`. -/
def tagOfStr (s : String) : String := "\x7b" ++ s ++ "\x7d"

/-! ## The per-item resolution step

Both resolvers process each lexical token independently: the branch taken
and everything written for an item depend only on the item's text; the
running counter only fixes the numeric ids.  A `Recipe` is the net effect of
one loop iteration: the final token surfaces written (in id order, ids
`base..base+k-1` with `base = count + count_tok_insertions`), whether a span
entry is written and whether its value is a single token key (`some false`)
or a list of the item's token keys (`some true`), the annotation list
(written iff nonempty), and the net change of `count_tok_insertions`.
Python writes that overwrite an earlier write of the same iteration at the
same key (e.g. the symbol branch at lines 218-232 followed by the
underscore branch at lines 297-320) are collapsed to the surviving value.
`none` models an uncaught exception. -/

structure Recipe where
  toks : List String
  spanL : Option Bool
  anno : List String
  delta : Int
deriving DecidableEq

/-- Function `create_tok_span_anno_target`: the plain-item branch
(target.py lines 174-351). -/
def stepTargetPlain (item : String) : Option Recipe :=
  if item = "_B" ∨ item = "_Karten" then
    some ⟨[strTail item], some false, ["_"], 0⟩
  else if item.data.all (· = '*') then
    some ⟨[item], some false, ["*"], 0⟩
  else if item = "{N}" ∨ item = "{F}" ∨ item = "{G}" then
    some ⟨[], none, [], -1⟩
  else
    let symbols1 := findAllS mT1 item
    let coreAnno := if symbols1.isEmpty then [] else findAllS mT2 item
    let core : Recipe :=
      if symbols1.isEmpty then ⟨[item], some false, [], 0⟩
      else ⟨[normT6 item], some false, coreAnno, 0⟩
    if countChar item '_' > 0 then
      -- lines 247-320; these overwrite the token/span entry of `core`
      if item = "Champions{F}~_league{F}" then
        some ⟨["Champions", "League"], some true, coreAnno ++ ["~", "_"], 1⟩
      else if countChar item '_' > 1 then
        let parts := (pySplitOn '_' item).map normT6
        some ⟨parts, some true, findAllS mT3 item, (parts.length : Int) - 1⟩
      else
        let parts := pySplitOn '_' (normT5 item)
        match parts.get? 0, parts.get? 1 with
        | some a, some b => some ⟨[a, b], some true, coreAnno ++ ["_"], 1⟩
        | _, _ => none
    -- lines 327-351.  In the source the tilde branch follows the underscore
    -- branch unconditionally, but its three literal items contain no
    -- underscore, so it only ever fires when the underscore branch did not.
    else if countChar item '~' > 0 ∧
        (item = "Null~Kalorien" ∨ item = "King{N}~Kong{N}" ∨ item = "3~Mal") then
      let parts := pySplitOn '~' (normT5 item)
      match parts.get? 0, parts.get? 1 with
      | some a, some b => some ⟨[a, b], some true, coreAnno ++ ["~"], 1⟩
      | _, _ => none
    else some core

/-- Function `create_tok_span_anno_target`: the simple bracketed shape
(target.py lines 364-384). -/
def stepTargetSimpleBracket (item : String) : Option Recipe :=
  let parts := pySplitWs item
  match parts.get? 0, parts.get? 1 with
  | some first, some second =>
    if pyIn "§" second then some ⟨[], none, [], -1⟩
    else if pyIn "§" first then some ⟨[strInit second], some false, [item], 0⟩
    else if pyIn "*" second then some ⟨[strTail first], some false, [item], 0⟩
    else some ⟨[strInit second], some false, [item], 0⟩
  | _, _ => none

/-- Function `create_tok_span_anno_target`, complicated bracketed cases: pinned
literal table, first half (target.py lines 400-474). -/
def stepTargetComplexLitsA (item : String) : Option Recipe :=
if pyIn "Notfall[. §]_geld" item then
  some ⟨["Notfallgeld"], some false, ["[. §]", "_", "§"], 0⟩
else if pyIn "[§ irgend]wohin" item then
  some ⟨["irgendwohin"], some false, ["[§ irgend]"], 0⟩
else if item = "Wie_[s heißt]_der" then
  some ⟨["Wie", "heißt", "der"], some true, ["_", "[s heißt]", "_"], 2⟩
else if item = "rennt_er_[§ .]_Heute" then
  some ⟨["rennt", "er", ".", "Heute"], some true, ["_", "_", "[§ .]", "_"], 3⟩
else if item = "er_war_[zuf*iden zufrieden]" then
  some ⟨["er", "war", "zufrieden"], some true, ["_", "_", "[zuf*iden zufrieden]"], 2⟩
else if item = "Geburtstags[§ geschenk]" then
  some ⟨["Geburtstagsgeschenk"], some true, ["[§ geschenk]"], 0⟩
else if item = "Kriminal§[Polizei polizist]" then
  some ⟨["Kriminalpolizist"], some true, ["§", "[Polizei polizist]"], 0⟩
else none

/-- Function `create_tok_span_anno_target`, complicated bracketed cases: pinned
literal table, second half (target.py lines 476-522). -/
def stepTargetComplexLitsB (item : String) : Option Recipe :=
if item = "km[§ /]h{F}" then
  some ⟨["km/h"], some true, ["[§ /]", "{F}"], 0⟩
else if item = "24[. :]00" then
  some ⟨["24:00"], some true, ["[. :]"], 0⟩
else if item = "9[. :]30" then
  some ⟨["9:30"], some true, ["[. :]"], 0⟩
else if item = "b[. §]z[. §]w" then
  some ⟨["bzw"], some true, ["[. §]", "[. §]"], 0⟩
else if item = "u[. §]s[. §]w" then
  some ⟨["usw"], some true, ["[. §]", "[. §]"], 0⟩
else if item = "us[. §]w" then
  some ⟨["usw"], some true, ["[. §]"], 0⟩
else none

/-- Function `create_tok_span_anno_target`, complicated bracketed cases: the pinned
literal table (target.py lines 400-522); `none` when no literal matches. -/
def stepTargetComplexLits (item : String) : Option Recipe :=
  match stepTargetComplexLitsA item with
  | some r => some r
  | none => stepTargetComplexLitsB item

/-- Function `create_tok_span_anno_target`, complicated bracketed cases: the general
underscore/bracket rules and the silent fallthrough
(target.py lines 524-625). -/
def stepTargetComplexRules (item : String) : Option Recipe :=
if pyIn "_[" item ∧ pyIn "§]" item then
  match (pySplitOn '_' item).get? 1 with
  | some p1 => some ⟨[strBeforeSub "_[" item], some false, ["_", p1], 0⟩
  | none => none
else if pyIn "_[" item then
  let ps := pySplitOn '_' item
  match ps.get? 0, ps.get? 1 with
  | some ia, some ib =>
    if pyIn " " ia then
      match (pySplitWs ia).get? 1, (pySplitWs ib).get? 1 with
      | some an, some bn =>
        some ⟨[strInit an, strInit bn], some true, [ia, "_", ib], 1⟩
      | _, _ => none
    else
      match (pySplitWs ib).get? 1 with
      | some bn => some ⟨[ia, strInit bn], some true, ["_", ib], 1⟩
      | none => none
  | _, _ => none
else if pyIn "]_" item then
  let ps := pySplitOn '_' item
  match ps.get? 0, ps.get? 1 with
  | some ia, some ib =>
    match (pySplitWs ia).get? 1 with
    | some an =>
      if pyIn "\x7b" ib then
        match (findAllS mCurlyAny ib).get? 0 with
        | some sym =>
          some ⟨[strInit an, subDel mCurlyAny ib], some true, [ia, "_", sym], 1⟩
        | none => none
      else some ⟨[strInit an, ib], some true, [ia, "_"], 1⟩
    | none => none
  | _, _ => none
else if pyIn "_" item ∧ pyIn "[§" item then
  let ps := pySplitOn '_' item
  match ps.get? 0, ps.get? 1 with
  | some ia, some ib =>
    match (pySplitWs ib).get? 1 with
    | some w =>
      some ⟨[ia, replaceAll "]" "" (replaceAll "[§ " "" ib)], some true,
        ["_", "[§ " ++ w], 1⟩
    | none => none
  | _, _ => none
else if pyIn "§[§" item then
  match (pySplitOn '[' item).get? 1 with
  | some p1 =>
    some ⟨[replaceAll "]" "" (replaceAll "§[§ " "" item)], some true,
      ["§", "[" ++ p1], 0⟩
  | none => none
else
  -- no branch applies: the iteration falls through, writing nothing and
  -- leaving the counter untouched (the silent-skip fragility)
  some ⟨[], none, [], 0⟩

/-- Function `create_tok_span_anno_target`: the complicated bracketed cases
(target.py lines 399-625): first the literal table, then the general rules. -/
def stepTargetComplexBracket (item : String) : Option Recipe :=
  match stepTargetComplexLits item with
  | some r => some r
  | none => stepTargetComplexRules item

/-- Function `create_tok_span_anno_target`, one iteration (target.py lines 171-626). -/
def stepTarget (item : String) : Option Recipe :=
  if pyIn "[" item = false then stepTargetPlain item
  else if countChar item '[' = 1 ∧ item.data.head? = some '[' ∧
      item.data.getLast? = some ']' then
    stepTargetSimpleBracket item
  else stepTargetComplexBracket item

/-- Function `create_tok_span_anno_achieved`: the repetition block for items
containing `{2}`/`{3}`/`{4}` (target.py lines 665-789). -/
def stepAchievedRep (item : String) : Option Recipe :=
  if countChar item '_' > 0 ∧ item.endsWith "\x7d" then
    -- lines 668-703, e.g. es_Wise--N{2}
    match pyGetChar item ((item.data.length : Int) - 2) with
    | none => none
    | some rc =>
      match charToDigit rc with
      | none => none
      | some n =>
        match (pySplitOn '_' item).get? 1 with
        | none => none
        | some p1 =>
          let item_b := pySlice p1 0 (-3)
          let expanded := pySlice item 0 (-3) ++
            String.join ((List.range (n - 1)).map (fun _ => " " ++ item_b))
          let symbol_list := tagOfChar rc :: findAllS mARep expanded
          let toks := pySplitWs (normAch expanded)
          some ⟨toks, some true, symbol_list, (toks.length : Int) - 1⟩
  else if countChar item '_' > 0 then
    -- lines 706-744, e.g. kam{2}_nicht.  The expansion built at lines
    -- 712-714 is never used afterwards: the single de-numbered copy
    -- (`full_item_nonumber`) is what gets normalized and tokenized.
    match (pySplitOn '_' item).get? 0 with
    | none => none
    | some ia =>
      match pyGetChar item ((ia.data.length : Int) - 2) with
      | none => none
      | some rc =>
        match charToDigit rc with
        | none => none
        | some _ =>
          let full := subDel mCurlyDigit item
          let symbol_list := tagOfChar rc :: findAllS mARep full
          let toks := pySplitWs (normAch full)
          some ⟨toks, some true, symbol_list, (toks.length : Int) - 1⟩
  else
    -- lines 747-789
    let lastTwo := pySlice item (-2) (item.data.length : Int)
    if pyIn "2" lastTwo ∨ pyIn "3" lastTwo ∨ pyIn "4" lastTwo then
      match pyGetChar item ((item.data.length : Int) - 2) with
      | none => none
      | some rc =>
        match charToDigit rc with
        | none => none
        | some n =>
          let item_nonumber := pySlice item 0 (-3)
          let expanded := String.join ((List.range n).map (fun _ => " " ++ item_nonumber))
          let symbol_list := tagOfChar rc :: findAllS mARep expanded
          let toks := pySplitWs (normAch expanded)
          some ⟨toks, some true, symbol_list, (toks.length : Int) - 1⟩
    else
      let rcs := pySlice item (-5) (-4)
      match pyIntOfStr rcs with
      | none => none
      | some n =>
        let item_nonumber := pySlice item 0 (-6) ++ pySlice item (-3) (item.data.length : Int)
        let expanded := String.join ((List.range n).map (fun _ => " " ++ item_nonumber))
        let symbol_list := tagOfStr rcs :: findAllS mARep expanded
        let toks := pySplitWs (normAch expanded)
        some ⟨toks, some true, symbol_list, (toks.length : Int) - 1⟩

/-- Function `create_tok_span_anno_achieved`, plain items that (after the line-809
normalization) combine `§` with `=` or repeat one of them
(target.py lines 819-969). -/
def stepAchievedSymMulti (symbol_list : List String) (item1 : String) : Option Recipe :=
  if item1 = "Free§fall=tower" then
    some ⟨["Free", "fall", "tower"], some true, symbol_list ++ ["§", "="], 2⟩
  else if item1 = "Rhein=Neckar=löwen" then
    some ⟨["Rhein", "Neckarlöwen"], some true, symbol_list ++ ["=", "="], 1⟩
  else if item1 = "ABFOJA=Aller§Beste" then
    some ⟨["ABFOJA=Aller", "Beste"], some true, symbol_list ++ ["§"], 1⟩
  else if item1 = "Handball=Damen§Nationalmannschaft" then
    some ⟨["Handball", "Damen", "Nationalmannschaft"], some true,
      symbol_list ++ ["=", "§"], 2⟩
  else if item1 = "Java=chip=chocolate=cream" then
    some ⟨["Java", "chip", "chocolate", "cream"], some true,
      symbol_list ++ ["=", "=", "="], 3⟩
  else if item1 = "ent§lang§zu§hangeln" then
    some ⟨["ent", "lang", "zu", "hangeln"], some true,
      symbol_list ++ ["§", "§", "§"], 3⟩
  else if item1 = "After=Show=Party" ∨ item1 = "5=sterne=hotel" ∨
      item1 = "Formel=1=fahrer" ∨ item1 = "5=gänge=menü" ∨
      item1 = "1=Mann=wohnung" ∨ item1 = "Rhein=Neckar=Löwen" ∨
      item1 = "4=zimmer=wohnung" ∨ item1 = "internet=unterwegs=Handys" ∨
      item1 = "gute=nacht=geschichtefor" then
    let ps := pySplitOn '=' item1
    match ps.get? 0, ps.get? 1, ps.get? 2 with
    | some a, some b, some c =>
      some ⟨[a, b, c], some true, symbol_list ++ ["=", "="], 2⟩
    | _, _, _ => none
  else if item1 = "U=bahn=systemen" ∨ item1 = "Günter=gloz=anlage" then
    some ⟨[replaceAll "=" "" item1], some false, symbol_list ++ ["=", "="], 0⟩
  else if countChar item1 '§' = 2 ∧ ¬pyIn "=" item1 then
    let ps := pySplitOn '§' item1
    match ps.get? 0, ps.get? 1, ps.get? 2 with
    | some a, some b, some c =>
      some ⟨[a, b, c], some true, symbol_list ++ ["§", "§"], 2⟩
    | _, _, _ => none
  else
    -- lines 968-969: "THIS EXCEPTIONAL CASE IS NOT YET HANDLED" —
    -- only a print, nothing is written and the counter is untouched
    some ⟨[], none, [], 0⟩

/-- Function `create_tok_span_anno_achieved`, plain items containing one `=` after
normalization (target.py lines 993-1078). -/
def stepAchievedSymEq (symbol_list : List String) (item1 : String) : Option Recipe :=
  if item1 = "=surfer" then some ⟨["surfer"], some false, symbol_list ++ ["="], 0⟩
  else if item1 = "Angel=" then some ⟨["Angel"], some false, ["="], 0⟩
  else if item1 = "Nord=" then some ⟨["Nord"], some false, ["="], 0⟩
  else if item1 = "ABOJA=" then some ⟨["ABOJA"], some false, ["="], 0⟩
  else if item1 = "drei=" then some ⟨["drei"], some false, ["="], 0⟩
  else if item1 = "=)" then
    -- line 1047-1048: the smiley is skipped with a bare `continue`,
    -- without decrementing the counter
    some ⟨[], none, [], 0⟩
  else if item1 = "=" then
    some ⟨["fehlendeswort: -"], some false, ["="], 0⟩
  else
    let ps := pySplitOn '=' item1
    match ps.get? 0, ps.get? 1 with
    | some a, some b => some ⟨[a, b], some true, symbol_list ++ ["="], 1⟩
    | _, _ => none

/-- Function `create_tok_span_anno_achieved`: the plain-item symbol machinery
(target.py lines 791-1086).  When symbols are found, `item` is reassigned to
its normalized form (line 809) and all later membership tests and splits run
on that normalized string (`item1` below).  The write at lines 812-817
happens exactly when `item1` has no `§` and no `=`; in that case control
also reaches the plain-token branch at lines 1081-1086, which rewrites the
same token and span keys with identical values, so the net recipe is the
single write. -/
def stepAchievedSymCore (symbol_list : List String) (item1 : String) : Option Recipe :=
  if (pyIn "§" item1 ∧ pyIn "=" item1) ∨ countChar item1 '§' > 1 ∨ countChar item1 '=' > 1 then
    stepAchievedSymMulti symbol_list item1
  else if pyIn "§" item1 then
    -- lines 972-991: write the two words apart
    let ps := pySplitOn '§' item1
    match ps.get? 0, ps.get? 1 with
    | some a, some b => some ⟨[a, b], some true, symbol_list ++ ["§"], 1⟩
    | _, _ => none
  else if pyIn "=" item1 then
    stepAchievedSymEq symbol_list item1
  else
    -- lines 1081-1086 (plain token, possibly already normalized above)
    some ⟨[item1], some false, symbol_list, 0⟩

def stepAchievedSym (item : String) : Option Recipe :=
  let symbols := findAllS mA1 item
  stepAchievedSymCore symbols (if symbols.isEmpty then item else normAch item)

/-- Function `create_tok_span_anno_achieved`: the simple bracketed shape
(target.py lines 1100-1149). -/
def stepAchievedSimpleBracket (item : String) : Option Recipe :=
  let parts := pySplitWs item
  match parts.get? 0, parts.get? 1 with
  | some first, some second =>
    if pyIn "§" first ∨ pyIn "fehlendeswort" second then
      if pyIn "fehlendeswort" second then
        some ⟨["fehlendeswort:unbekannt"], some false, [item], 0⟩
      else
        some ⟨["fehlendeswort: " ++ strInit second], some false, [item], 0⟩
    else if pyIn "{2}" item then
      -- lines 1117-1126, e.g. [er{2} §]
      let w := pySlice first 1 (-3)
      some ⟨[w, w], some true, [item], 1⟩
    else
      -- lines 1128-1149: take the first word as the token
      let fi := strTail first
      some ⟨[normAchBr fi], some false, item :: findAllS mABr fi, 0⟩
  | _, _ => none

/-- The function locals `item_a` and `item_b` of `create_tok_span_anno_achieved`
persist across loop iterations; `none` means the name has not been bound by any
earlier iteration yet (so using it raises NameError).  Within the achieved
resolver they are assigned at target.py lines 670 (`item_b`), 707 (`item_a`)
and 1177-1181 (both), and read at lines 1185-1186. -/
structure AState where
  ia : Option String
  ib : Option String
deriving DecidableEq

/-- The writes the repetition block performs on the persisting locals:
line 670 binds `item_b` to `item.split('_')[1][:-3]` when the item has an
underscore and ends in a closing brace, line 707 binds `item_a` to
`item.split('_')[0]` when it has an underscore but no trailing brace; the
numeric-count branch binds neither.  A branch that later raises aborts the
whole call, so only the successful update is observable. -/
def repStateUpdate (item : String) (st : AState) : AState :=
  if countChar item '_' > 0 ∧ item.endsWith "\x7d" then
    match (pySplitOn '_' item).get? 1 with
    | some p1 => ⟨st.ia, some (pySlice p1 0 (-3))⟩
    | none => st
  else if countChar item '_' > 0 then
    match (pySplitOn '_' item).get? 0 with
    | some ia => ⟨some ia, st.ib⟩
    | none => st
  else st

/-- Function `create_tok_span_anno_achieved`: the complicated bracketed cases
(target.py lines 1152-1206).  The `§[` branch (lines 1175-1189) assigns
`item_a`/`item_b` only for its two literal items; every other `§[` item is
resolved with whatever values those locals retained from earlier iterations,
and raises NameError (modelled as `none`) exactly when one of them was never
bound. -/
def stepAchievedComplexBracket (st : AState) (item : String) : Option (Recipe × AState) :=
  if ¬pyIn "§" item then
    match (pySplitOn '_' item).mapM
        (fun i => if pyIn " " i then ((pySplitWs i).get? 0).map strTail else some i) with
    | none => none
    | some pieces =>
      some (⟨[normAchBr (String.join pieces)], some false, [item], 0⟩, st)
  else if pyIn "§[" item then
    if item = "Rein§[§ kommt]" then
      some (⟨["Rein", "fehlendeswort:kommt"], some true, [item], 1⟩,
        ⟨some "Rein", some "fehlendeswort:kommt"⟩)
    else if item = "Criminal§[Polizei polizist]" then
      some (⟨["Criminal", "Polizei"], some true, [item], 1⟩,
        ⟨some "Criminal", some "Polizei"⟩)
    else
      match st.ia, st.ib with
      | some a, some b => some (⟨[a, b], some true, [item], 1⟩, st)
      | _, _ => none
  else
    -- lines 1191-1206
    let item_tmp :=
      if pyIn "[§" item then subS mBrPgfGreedy item
      else replaceAll " §]" "" (replaceAll "[" "" item)
    some (⟨[replaceAll "_" "" item_tmp], some false, [item], 0⟩, st)

/-- Function `create_tok_span_anno_achieved`, one iteration (target.py lines
649-1207), threading the persisting locals `item_a`/`item_b`. -/
def stepAchieved (st : AState) (item : String) : Option (Recipe × AState) :=
  if pyIn "[" item = false then
    if item = "={N}" then
      -- line 654: the equals sign is an arithmetic symbol here
      some (⟨["="], some false, ["{N}"], 0⟩, st)
    else if pyIn "{2}" item ∨ pyIn "{3}" item ∨ pyIn "{4}" item then
      (stepAchievedRep item).map (fun r => (r, repStateUpdate item st))
    else
      (stepAchievedSym item).map (fun r => (r, st))
  else if countChar item '[' = 1 ∧ item.data.head? = some '[' ∧
      item.data.getLast? = some ']' then
    (stepAchievedSimpleBracket item).map (fun r => (r, st))
  else stepAchievedComplexBracket st item

/-- Does resolving the item under the Achieved policy read the persisting
locals `item_a`/`item_b` left by earlier iterations?  True exactly for the
non-literal case of the `§[` branch (target.py lines 1175-1189). -/
def usesStaleLocals (item : String) : Bool :=
  pyIn "[" item &&
  !(decide (countChar item '[' = 1 ∧ item.data.head? = some '[' ∧
      item.data.getLast? = some ']')) &&
  pyIn "§" item && pyIn "§[" item &&
  !(decide (item = "Rein§[§ kommt]")) && !(decide (item = "Criminal§[Polizei polizist]"))

/-! ## The per-sentence driver

Both resolvers iterate `for count, item in enumerate(token_list)` with the
shared counter `count_tok_insertions` (here `ins`), writing into three
insertion-ordered dicts.  Across iterations every written key is fresh
(token ids written by an iteration all exceed everything written before;
span/annotation keys carry the iteration index), so dict insertion is
modelled by appending. -/

inductive Policy where
  | target
  | achieved
deriving DecidableEq

inductive SpanV where
  | one (id : Int)
  | many (ids : List Int)
deriving DecidableEq

structure Maps where
  tok : List (Int × String)
  span : List (Nat × SpanV)
  anno : List (Nat × List String)
deriving DecidableEq

/-- Write one item's recipe at position `count` with counter `ins`:
token ids `count+ins, …`; span key `count`; annotation key `count`. -/
def applyRecipe (count : Nat) (ins : Int) (m : Maps) (r : Recipe) : Maps × Int :=
  let base : Int := (count : Int) + ins
  let newToks := ((List.range r.toks.length).zip r.toks).map
    (fun p => (base + (p.1 : Int), p.2))
  let newSpan : List (Nat × SpanV) :=
    match r.spanL with
    | none => []
    | some false => [(count, SpanV.one base)]
    | some true =>
      [(count, SpanV.many ((List.range r.toks.length).map (fun j => base + (j : Int))))]
  let newAnno : List (Nat × List String) :=
    if r.anno.isEmpty then [] else [(count, r.anno)]
  (⟨m.tok ++ newToks, m.span ++ newSpan, m.anno ++ newAnno⟩, ins + r.delta)

/-- One iteration of either resolver, as a state transformer on the persisting
locals.  The Target resolver never reads or writes `item_a`/`item_b` outside a
single iteration, so its step passes the state through unchanged. -/
def stepOf : Policy → AState → String → Option (Recipe × AState)
  | .target => fun st item => (stepTarget item).map (fun r => (r, st))
  | .achieved => stepAchieved

def runGo (step : AState → String → Option (Recipe × AState)) :
    List String → Nat → Int → AState → Maps → Option Maps
  | [], _, _, _, m => some m
  | item :: rest, count, ins, st, m =>
    match step st item with
    | none => none
    | some (r, st') =>
      let p := applyRecipe count ins m r
      runGo step rest (count + 1) p.2 st' p.1

/-- Function `create_tok_span_anno_target` / `create_tok_span_anno_achieved` on a
token list: the three maps, or `none` if an iteration raises.  The persisting
locals start unbound. -/
def runPolicy (p : Policy) (l : List String) : Option Maps :=
  runGo (stepOf p) l 0 0 ⟨none, none⟩ ⟨[], [], []⟩

/-- Alias carrying the source function's name. -/
def create_tok_span_anno_target (token_list : List String) : Option Maps :=
  runPolicy .target token_list

/-- Alias carrying the source function's name. -/
def create_tok_span_anno_achieved (token_list : List String) : Option Maps :=
  runPolicy .achieved token_list

/-! ## Rendering numeric keys back to the source's string keys -/

inductive RSpanV where
  | one (tk : String)
  | many (tks : List String)
deriving DecidableEq

structure RMaps where
  tok : List (String × String)
  span : List (String × RSpanV)
  anno : List (String × List String)
deriving DecidableEq

def renderTok (i : Int) : String := "tok" ++ toString i

def renderSpanKey (n : Nat) : String := "sSpan" ++ toString n

def renderSpanV : SpanV → RSpanV
  | .one i => .one (renderTok i)
  | .many is => .many (is.map renderTok)

/-- The maps with the source's `"tok<n>"` / `"sSpan<n>"` keys. -/
def renderMaps (m : Maps) : RMaps :=
  ⟨m.tok.map (fun p => (renderTok p.1, p.2)),
   m.span.map (fun p => (renderSpanKey p.1, renderSpanV p.2)),
   m.anno.map (fun p => (renderSpanKey p.1, p.2))⟩

/-! ## Theorems about the tokenizer -/

/-- Each drop pass at least halves the number of unbalanced elements:
running from index `idx`, the unbalanced elements still ahead are removed up
to the skip-after-removal effect, so (counting doubled) the result is
bounded by twice what is already behind the index plus what lies ahead. -/
theorem dropGo_bound (fuel : Nat) :
    ∀ (l : List String) (idx : Nat), l.length ≤ idx + fuel →
      2 * (dropGo fuel l idx).countP unbal ≤
        2 * (l.take idx).countP unbal + (l.drop idx).countP unbal := by
  induction fuel with
  | zero =>
    intro l idx hlen
    simp only [dropGo]
    rw [List.take_of_length_le (by omega), List.drop_eq_nil_of_le (by omega)]
    simp
  | succ fuel ih =>
    intro l idx hlen
    simp only [dropGo]
    split
    case isFalse h =>
      rw [List.take_of_length_le (by omega), List.drop_eq_nil_of_le (by omega)]
      simp
    case isTrue h =>
      set x := l.get ⟨idx, h⟩ with hx
      have hdrop : l.drop idx = x :: l.drop (idx + 1) := by
        rw [List.drop_eq_getElem_cons h]
        rfl
      have htake : l.take (idx + 1) = l.take idx ++ [x] := by
        rw [List.take_succ]
        have hg : l[idx]? = some x := by
          rw [List.getElem?_eq_getElem h]
          rfl
        rw [hg]
        rfl
      have takeApp : ∀ (A B : List String), A.length = idx →
          (A ++ B).take (idx + 1) = A ++ B.take 1 := by
        intro A B hA
        rw [show idx + 1 = A.length + 1 from by omega, List.take_append]
      have dropApp : ∀ (A B : List String), A.length = idx →
          (A ++ B).drop (idx + 1) = B.drop 1 := by
        intro A B hA
        rw [show idx + 1 = A.length + 1 from by omega, List.drop_append]
      split
      case isTrue hub =>
        -- the element is removed; `erase` removes the first equal occurrence,
        -- which lies within the first idx+1 elements
        have hxmem : x ∈ l.take (idx + 1) := by
          rw [htake]; exact List.mem_append_right _ (by simp)
        have hsplit : l = l.take (idx + 1) ++ l.drop (idx + 1) :=
          (List.take_append_drop _ _).symm
        have herase : l.erase x = (l.take (idx + 1)).erase x ++ l.drop (idx + 1) := by
          conv_lhs => rw [hsplit]
          exact List.erase_append_left _ hxmem
        have hlenA : ((l.take (idx + 1)).erase x).length = idx := by
          rw [List.length_erase_of_mem hxmem, List.length_take]
          omega
        obtain ⟨A₁, A₂, -, hA, hAerase⟩ := List.exists_erase_eq hxmem
        have hcountA : (l.take (idx + 1)).countP unbal =
            ((l.take (idx + 1)).erase x).countP unbal + 1 := by
          rw [hAerase, hA]
          simp only [List.countP_append, List.countP_cons, hub, if_true]
          omega
        have htakecount : (l.take (idx + 1)).countP unbal =
            (l.take idx).countP unbal + 1 := by
          rw [htake]
          simp only [List.countP_append, List.countP_cons, List.countP_nil, hub, if_true]
        have hT : (l.erase x).take (idx + 1) =
            (l.take (idx + 1)).erase x ++ (l.drop (idx + 1)).take 1 := by
          rw [herase]; exact takeApp _ _ hlenA
        have hD : (l.erase x).drop (idx + 1) = (l.drop (idx + 1)).drop 1 := by
          rw [herase]; exact dropApp _ _ hlenA
        have hBsplit : (l.drop (idx + 1)).countP unbal =
            ((l.drop (idx + 1)).take 1).countP unbal +
              ((l.drop (idx + 1)).drop 1).countP unbal := by
          conv_lhs => rw [← List.take_append_drop 1 (l.drop (idx + 1))]
          rw [List.countP_append]
        have hB1 : ((l.drop (idx + 1)).take 1).countP unbal ≤ 1 := by
          calc ((l.drop (idx + 1)).take 1).countP unbal
              ≤ ((l.drop (idx + 1)).take 1).length := List.countP_le_length _
            _ ≤ 1 := List.length_take_le 1 (l.drop (idx + 1))
        have hrec := ih (l.erase x) (idx + 1)
          (by rw [List.length_erase_of_mem (List.mem_of_mem_take hxmem)]; omega)
        rw [hT, hD, List.countP_append] at hrec
        have hdropc : (l.drop idx).countP unbal =
            (l.drop (idx + 1)).countP unbal + 1 := by
          rw [hdrop]
          simp only [List.countP_cons, hub, if_true]
        omega
      case isFalse hub =>
        have hrec := ih l (idx + 1) (by omega)
        have htakecount : (l.take (idx + 1)).countP unbal =
            (l.take idx).countP unbal := by
          rw [htake]
          simp only [List.countP_append, List.countP_cons, List.countP_nil, hub]
          simp
        have hdropc : (l.drop idx).countP unbal =
            (l.drop (idx + 1)).countP unbal := by
          rw [hdrop]
          simp only [List.countP_cons, hub]
          simp
        omega

/-- A single drop pass removes at least half of the unbalanced elements. -/
theorem dropPass_halves (l : List String) :
    2 * (dropPass l).countP unbal ≤ l.countP unbal := by
  have := dropGo_bound l.length l 0 (by omega)
  simpa [dropPass] using this

/-- C10: `tokenize` is not total.  On an input whose final
whitespace-separated element contains an opening bracket (e.g. `"wort["`,
also inside a longer sentence), the re-merge loop reads one element past the
end of the list and the function raises an uncaught IndexError instead of
returning a token list. -/
theorem c10_tokenize_partial :
    tokenize "wort[" = none ∧ tokenize "ein Satz wort[" = none := by decide

/-- C9 counterexample: the two drop passes do not remove every unbalanced
element.  On the input `"x] y] z] w]"` the merged list has four unbalanced
elements; the remove-while-iterating passes skip ahead after each removal
and the final output still contains the unbalanced element `"w]"`. -/
theorem c9_counterexample :
    tokenize "x] y] z] w]" = some ["w]"] ∧ unbal "w]" = true := by decide

/-- C9 amended: each remove-while-iterating pass removes at least half of
the unbalanced elements, so whenever the list produced by the merge step
contains at most three unbalanced elements, the two drop passes remove them
all; with four or more, one can survive (see the counterexample). -/
theorem c9_amended (text : String) (m : List String)
    (hm : tokMerged text = some m) (h3 : m.countP unbal ≤ 3) :
    ∃ out, tokenize text = some out ∧ out.countP unbal = 0 := by
  refine ⟨dropPass (dropPass m), by simp [tokenize, hm], ?_⟩
  have h1 := dropPass_halves m
  have h2 := dropPass_halves (dropPass m)
  omega

/-- Witness for `c9_amended` at a concrete input: `"a] b"` merges to
`["a]", "b"]` with one unbalanced element, and tokenization removes it. -/
theorem c9_witness :
    ∃ out, tokenize "a] b" = some out ∧ out.countP unbal = 0 :=
  c9_amended "a] b" ["a]", "b"] (by decide) (by decide)

/-! ## Theorems about the resolvers: token-id contiguity (C1) -/

/-- Peeling a state-preserving wrapped step: the recipe comes from the
stateless component and the state is returned unchanged. -/
theorem mapState_eq (f : Option Recipe) (st : AState) (r : Recipe) (o : AState)
    (h : f.map (fun x => (x, st)) = some (r, o)) : f = some r ∧ st = o := by
  cases f with
  | none => simp at h
  | some a =>
    simp only [Option.map_some', Option.some.injEq, Prod.mk.injEq] at h
    exact ⟨by rw [h.1], h.2⟩

/-- A recipe respects the counter discipline of spec §3.2: a zero-output item
decrements `count_tok_insertions` by one, a `k`-token item increments it by
`k - 1`. -/
def okRecipe (r : Recipe) : Bool :=
  match r.toks with
  | [] => r.delta == -1
  | _ :: _ => r.delta == (r.toks.length : Int) - 1

/-- Every recipe produced along the threaded run respects the counter
discipline (a failing step aborts the run, so nothing after it matters). -/
def okThread (step : AState → String → Option (Recipe × AState)) :
    AState → List String → Bool
  | _, [] => true
  | st, it :: rest =>
    match step st it with
    | some (r, st') => okRecipe r && okThread step st' rest
    | none => true

/-- Every item of the list resolves (if it resolves at all) to a recipe
respecting the counter discipline. -/
def okRun (p : Policy) (l : List String) : Bool :=
  okThread (stepOf p) ⟨none, none⟩ l

/-- The token keys written for one item are `base, base+1, …`. -/
theorem map_fst_newToks (toks : List String) (base : Int) :
    ((((List.range toks.length).zip toks).map
        (fun p => (base + (p.1 : Int), p.2))).map Prod.fst)
      = (List.range toks.length).map (fun j : Nat => base + (j : Int)) := by
  rw [List.map_map]
  have h : (Prod.fst ∘ fun p : Nat × String => (base + (p.1 : Int), p.2)) =
      (fun j : Nat => base + (j : Int)) ∘ Prod.fst := rfl
  rw [h, ← List.map_map, List.map_fst_zip _ _ (by simp)]

theorem runGo_tok_range (step : AState → String → Option (Recipe × AState)) :
    ∀ (l : List String) (c : Nat) (ins : Int) (st : AState) (m : Maps) (t : Nat),
      (c : Int) + ins = t →
      m.tok.map Prod.fst = (List.range t).map Int.ofNat →
      okThread step st l = true →
      ∀ m', runGo step l c ins st m = some m' →
        ∃ T, m'.tok.map Prod.fst = (List.range T).map Int.ofNat := by
  intro l
  induction l with
  | nil =>
    intro c ins st m t _ hkeys _ m' hrun
    simp only [runGo] at hrun
    cases hrun
    exact ⟨t, hkeys⟩
  | cons it rest ih =>
    intro c ins st m t hbase hkeys hok m' hrun
    simp only [runGo] at hrun
    cases hstep : step st it with
    | none => rw [hstep] at hrun; exact absurd hrun (by simp)
    | some rs =>
      obtain ⟨r, st'⟩ := rs
      rw [hstep] at hrun
      have hok2 : okRecipe r = true ∧ okThread step st' rest = true := by
        simp only [okThread, hstep, Bool.and_eq_true] at hok
        exact hok
      have hr : okRecipe r = true := hok2.1
      have hkeys' : (applyRecipe c ins m r).1.tok.map Prod.fst =
          (List.range (t + r.toks.length)).map Int.ofNat := by
        simp only [applyRecipe, List.map_append]
        rw [hkeys, map_fst_newToks, List.range_add, List.map_append, List.map_map]
        congr 1
        apply List.map_congr_left
        intro j _
        simp only [Function.comp_apply, Int.ofNat_eq_coe]
        push_cast
        omega
      cases htoks : r.toks with
      | nil =>
        have hd : r.delta = -1 := by
          have := hr
          simp only [okRecipe, htoks] at this
          exact eq_of_beq this
        refine ih (c + 1) (ins + r.delta) st' (applyRecipe c ins m r).1 t ?_ ?_ hok2.2 m' hrun
        · rw [hd]; push_cast; omega
        · rw [hkeys', htoks]
          simp
      | cons a as =>
        have hd : r.delta = (r.toks.length : Int) - 1 := by
          have := hr
          simp only [okRecipe, htoks] at this
          rw [htoks]
          exact eq_of_beq this
        refine ih (c + 1) (ins + r.delta) st' (applyRecipe c ins m r).1
          (t + r.toks.length) ?_ hkeys' hok2.2 m' hrun
        rw [hd]
        push_cast
        omega

/-- C1 amended: whenever every item follows the counter discipline (every
zero-output item decrements the counter, every `k`-token item adds `k - 1`),
the numeric token-id keys of the returned Token Map are exactly
`0, 1, …, n-1` in increasing order — contiguous from 0, no gaps, no
duplicates — for both policies.  The unhandled-item branches that skip
without decrementing (see the counterexample) are exactly the recipes
excluded by `okRun`. -/
theorem c1_amended (p : Policy) (l : List String) (m : Maps)
    (hok : okRun p l = true) (h : runPolicy p l = some m) :
    m.tok.map Prod.fst = (List.range m.tok.length).map Int.ofNat := by
  obtain ⟨T, hT⟩ :=
    runGo_tok_range (stepOf p) l 0 0 ⟨none, none⟩ ⟨[], [], []⟩ 0 (by simp) (by simp) hok m h
  have hlen : m.tok.length = T := by
    have hc := congrArg List.length hT
    simpa using hc
  rw [hlen]
  exact hT

/-- C1 counterexample: on `["x", "a[b c]", "y"]` the Target resolver hits the
silent fallthrough of the bracketed-item chain for `"a[b c]"` (no token, no
counter decrement), so the returned token ids are `[0, 2]` — which, sorted,
is not a contiguous sequence starting at 0. -/
theorem c1_counterexample :
    runPolicy .target ["x", "a[b c]", "y"] =
      some ⟨[(0, "x"), (2, "y")], [(0, SpanV.one 0), (2, SpanV.one 2)], []⟩ ∧
    (⟨[(0, "x"), (2, "y")], [(0, SpanV.one 0), (2, SpanV.one 2)], []⟩ : Maps).tok.map
      Prod.fst = [0, 2] ∧
    ¬ ∃ T, [(0 : Int), 2] = (List.range T).map Int.ofNat := by
  refine ⟨by decide, by decide, ?_⟩
  rintro ⟨T, hT⟩
  have hT2 : T = 2 := by
    have hc := congrArg List.length hT
    simp at hc
    omega
  subst hT2
  exact absurd hT (by decide)

/-- Witness for `c1_amended`: the Target run on `["Er", "in_der"]`. -/
theorem c1_witness :
    (⟨[(0, "Er"), (1, "in"), (2, "der")],
      [(0, SpanV.one 0), (1, SpanV.many [1, 2])], [(1, ["_"])]⟩ : Maps).tok.map Prod.fst =
      (List.range (⟨[(0, "Er"), (1, "in"), (2, "der")],
        [(0, SpanV.one 0), (1, SpanV.many [1, 2])], [(1, ["_"])]⟩ : Maps).tok.length).map
        Int.ofNat :=
  c1_amended .target ["Er", "in_der"] _ (by decide) (by decide)

/-! ## Positional characterization of the Span and Annotation maps -/

/-- The span keys a run writes, starting at position `c`: exactly the
positions whose item (resolved with the threaded persisting locals) yields a
recipe with a span entry.  A failing step aborts the run, so the thread
stops there. -/
def spanKeys (step : AState → String → Option (Recipe × AState)) :
    AState → List String → Nat → List Nat
  | _, [], _ => []
  | st, it :: rest, c =>
    match step st it with
    | some (r, st') =>
      (if r.spanL.isSome then [c] else []) ++ spanKeys step st' rest (c + 1)
    | none => []

/-- The annotation entries a run writes, starting at position `c`. -/
def annoEntries (step : AState → String → Option (Recipe × AState)) :
    AState → List String → Nat → List (Nat × List String)
  | _, [], _ => []
  | st, it :: rest, c =>
    match step st it with
    | some (r, st') =>
      (if r.anno.isEmpty then [] else [(c, r.anno)]) ++ annoEntries step st' rest (c + 1)
    | none => []

/-- The recipe the run produces at position `j`, threading the persisting
locals through the preceding items. -/
def recipeAt (step : AState → String → Option (Recipe × AState)) :
    AState → List String → Nat → Option Recipe
  | _, [], _ => none
  | st, it :: _, 0 => (step st it).map Prod.fst
  | st, it :: rest, j + 1 =>
    match step st it with
    | some (_, st') => recipeAt step st' rest j
    | none => none

/-- Every step along the thread succeeds. -/
def allSome (step : AState → String → Option (Recipe × AState)) :
    AState → List String → Bool
  | _, [] => true
  | st, it :: rest =>
    match step st it with
    | some (_, st') => allSome step st' rest
    | none => false

/-- The annotation the run's recipe at position `j` attaches (if any). -/
def annoAtR (step : AState → String → Option (Recipe × AState))
    (st : AState) (l : List String) (j : Nat) : Option (List String) :=
  match recipeAt step st l j with
  | none => none
  | some r => if r.anno.isEmpty then none else some r.anno

/-- Span presence at position `j` of the threaded run. -/
def spanAtB (step : AState → String → Option (Recipe × AState))
    (st : AState) (l : List String) (j : Nat) : Bool :=
  match recipeAt step st l j with
  | none => false
  | some r => r.spanL.isSome

theorem runGo_span_keys (step : AState → String → Option (Recipe × AState)) :
    ∀ (l : List String) (c : Nat) (ins : Int) (st : AState) (m m' : Maps),
      runGo step l c ins st m = some m' →
      m'.span.map Prod.fst = m.span.map Prod.fst ++ spanKeys step st l c := by
  intro l
  induction l with
  | nil =>
    intro c ins st m m' hrun
    simp only [runGo] at hrun
    cases hrun
    simp [spanKeys]
  | cons it rest ih =>
    intro c ins st m m' hrun
    simp only [runGo] at hrun
    cases hstep : step st it with
    | none => rw [hstep] at hrun; exact absurd hrun (by simp)
    | some rs =>
      obtain ⟨r, st'⟩ := rs
      rw [hstep] at hrun
      have hrec := ih (c + 1) (applyRecipe c ins m r).2 st' (applyRecipe c ins m r).1 m' hrun
      rw [hrec]
      simp only [spanKeys, hstep, applyRecipe, List.map_append, List.append_assoc]
      congr 2
      cases hsp : r.spanL with
      | none => simp
      | some b => cases b <;> simp

theorem runGo_anno (step : AState → String → Option (Recipe × AState)) :
    ∀ (l : List String) (c : Nat) (ins : Int) (st : AState) (m m' : Maps),
      runGo step l c ins st m = some m' →
      m'.anno = m.anno ++ annoEntries step st l c := by
  intro l
  induction l with
  | nil =>
    intro c ins st m m' hrun
    simp only [runGo] at hrun
    cases hrun
    simp [annoEntries]
  | cons it rest ih =>
    intro c ins st m m' hrun
    simp only [runGo] at hrun
    cases hstep : step st it with
    | none => rw [hstep] at hrun; exact absurd hrun (by simp)
    | some rs =>
      obtain ⟨r, st'⟩ := rs
      rw [hstep] at hrun
      have hrec := ih (c + 1) (applyRecipe c ins m r).2 st' (applyRecipe c ins m r).1 m' hrun
      rw [hrec]
      simp only [annoEntries, hstep, applyRecipe, List.append_assoc]

/-- A successful run resolves every item along the thread. -/
theorem runGo_allSome (step : AState → String → Option (Recipe × AState)) :
    ∀ (l : List String) (c : Nat) (ins : Int) (st : AState) (m m' : Maps),
      runGo step l c ins st m = some m' → allSome step st l = true := by
  intro l
  induction l with
  | nil => intro c ins st m m' _; rfl
  | cons it rest ih =>
    intro c ins st m m' hrun
    simp only [runGo] at hrun
    cases hstep : step st it with
    | none => rw [hstep] at hrun; exact absurd hrun (by simp)
    | some rs =>
      obtain ⟨r, st'⟩ := rs
      rw [hstep] at hrun
      simp only [allSome, hstep]
      exact ih (c + 1) (applyRecipe c ins m r).2 st' (applyRecipe c ins m r).1 m' hrun

/-- When every step of the thread succeeds, each in-range position has a
recipe. -/
theorem allSome_recipeAt (step : AState → String → Option (Recipe × AState)) :
    ∀ (l : List String) (st : AState) (j : Nat) (it : String),
      allSome step st l = true → l.get? j = some it →
      ∃ r, recipeAt step st l j = some r := by
  intro l
  induction l with
  | nil => intro st j it _ hget; simp at hget
  | cons x rest ih =>
    intro st j it hall hget
    cases hstep : step st x with
    | none => simp [allSome, hstep] at hall
    | some rs =>
      obtain ⟨r, st'⟩ := rs
      have hall' : allSome step st' rest = true := by
        simpa [allSome, hstep] using hall
      cases j with
      | zero => exact ⟨r, by simp [recipeAt, hstep]⟩
      | succ j =>
        obtain ⟨q, hq⟩ := ih st' j it hall' (by simpa using hget)
        exact ⟨q, by simpa [recipeAt, hstep] using hq⟩

/-- Past the end of the list there is no recipe. -/
theorem recipeAt_none (step : AState → String → Option (Recipe × AState)) :
    ∀ (l : List String) (st : AState) (j : Nat),
      l.get? j = none → recipeAt step st l j = none := by
  intro l
  induction l with
  | nil => intro st j _; cases j <;> rfl
  | cons x rest ih =>
    intro st j hget
    cases j with
    | zero => simp at hget
    | succ j =>
      cases hstep : step st x with
      | none => simp [recipeAt, hstep]
      | some rs =>
        obtain ⟨r, st'⟩ := rs
        have hget' : rest.get? j = none := by simpa using hget
        simpa [recipeAt, hstep] using ih st' j hget'

/-- A recipe at position `j` comes from resolving the item at `j` in some
state of the persisting locals. -/
theorem recipeAt_step (step : AState → String → Option (Recipe × AState)) :
    ∀ (l : List String) (st : AState) (j : Nat) (it : String) (r : Recipe),
      l.get? j = some it → recipeAt step st l j = some r →
      ∃ s1 s2, step s1 it = some (r, s2) := by
  intro l
  induction l with
  | nil => intro st j it r hget _; simp at hget
  | cons x rest ih =>
    intro st j it r hget hr
    cases j with
    | zero =>
      have hx : x = it := by simpa using hget
      subst hx
      simp only [recipeAt] at hr
      cases hstep : step st x with
      | none => rw [hstep] at hr; exact absurd hr (by simp)
      | some rs =>
        obtain ⟨q, st'⟩ := rs
        rw [hstep] at hr
        have hq : q = r := by simpa using hr
        subst hq
        exact ⟨st, st', hstep⟩
    | succ j =>
      cases hstep : step st x with
      | none => rw [recipeAt, hstep] at hr; exact absurd hr (by simp)
      | some rs =>
        obtain ⟨q, st'⟩ := rs
        rw [recipeAt, hstep] at hr
        exact ih st' j it r (by simpa using hget) hr

/-- Every span key written from position `c` onwards is at least `c`. -/
theorem spanKeys_ge (step : AState → String → Option (Recipe × AState)) :
    ∀ (l : List String) (st : AState) (c k : Nat), k ∈ spanKeys step st l c → c ≤ k := by
  intro l
  induction l with
  | nil => intro st c k hk; simp [spanKeys] at hk
  | cons it rest ih =>
    intro st c k hk
    cases hstep : step st it with
    | none => simp [spanKeys, hstep] at hk
    | some rs =>
      obtain ⟨r, st'⟩ := rs
      simp only [spanKeys, hstep, List.mem_append] at hk
      rcases hk with hk | hk
      · by_cases hsp : r.spanL.isSome <;> simp [hsp] at hk
        omega
      · have := ih st' (c + 1) k hk
        omega

/-- Every span key written from position `c` for list `l` is below `c + l.length`. -/
theorem spanKeys_lt (step : AState → String → Option (Recipe × AState)) :
    ∀ (l : List String) (st : AState) (c k : Nat),
      k ∈ spanKeys step st l c → k < c + l.length := by
  intro l
  induction l with
  | nil => intro st c k hk; simp [spanKeys] at hk
  | cons it rest ih =>
    intro st c k hk
    cases hstep : step st it with
    | none => simp [spanKeys, hstep] at hk
    | some rs =>
      obtain ⟨r, st'⟩ := rs
      simp only [spanKeys, hstep, List.mem_append] at hk
      rcases hk with hk | hk
      · by_cases hsp : r.spanL.isSome <;> simp [hsp] at hk
        simp [hk]
      · have := ih st' (c + 1) k hk
        simp only [List.length_cons]
        omega

/-- Every annotation key written from position `c` onwards is at least `c`. -/
theorem annoEntries_ge (step : AState → String → Option (Recipe × AState)) :
    ∀ (l : List String) (st : AState) (c k : Nat),
      k ∈ (annoEntries step st l c).map Prod.fst → c ≤ k := by
  intro l
  induction l with
  | nil => intro st c k hk; simp [annoEntries] at hk
  | cons it rest ih =>
    intro st c k hk
    cases hstep : step st it with
    | none => simp [annoEntries, hstep] at hk
    | some rs =>
      obtain ⟨r, st'⟩ := rs
      simp only [annoEntries, hstep, List.map_append, List.mem_append] at hk
      rcases hk with hk | hk
      · by_cases hae : r.anno.isEmpty <;> simp [hae] at hk
        omega
      · have := ih st' (c + 1) k hk
        omega

/-- Looking up position `c + j` in the annotation entries from `c` gives the
annotation of the thread's recipe at `j` (when nonempty). -/
theorem annoEntries_find (step : AState → String → Option (Recipe × AState)) :
    ∀ (l : List String) (st : AState) (c j : Nat),
      ((annoEntries step st l c).find? (fun e => e.1 == c + j)).map Prod.snd =
        annoAtR step st l j := by
  intro l
  induction l with
  | nil => intro st c j; simp [annoEntries, annoAtR, recipeAt]
  | cons it rest ih =>
    intro st c j
    cases j with
    | zero =>
      cases hstep : step st it with
      | none => simp [annoEntries, annoAtR, recipeAt, hstep]
      | some rs =>
        obtain ⟨r, st'⟩ := rs
        simp only [annoEntries, hstep, Nat.add_zero]
        by_cases hae : r.anno.isEmpty
        · simp only [hae, if_true, List.nil_append]
          cases hfind : (annoEntries step st' rest (c + 1)).find? (fun e => e.1 == c) with
          | none => simp [hfind, annoAtR, recipeAt, hstep, hae]
          | some e =>
            have hkey : e.1 = c := by simpa using List.find?_some hfind
            have hge := annoEntries_ge step rest st' (c + 1) e.1
              (List.mem_map_of_mem _ (List.mem_of_find?_eq_some hfind))
            omega
        · simp [hae, List.find?, annoAtR, recipeAt, hstep]
    | succ j =>
      have heq : c + (j + 1) = c + 1 + j := by omega
      cases hstep : step st it with
      | none => simp [annoEntries, annoAtR, recipeAt, hstep]
      | some rs =>
        obtain ⟨r, st'⟩ := rs
        simp only [annoEntries, hstep]
        have hne : ((if r.anno.isEmpty then ([] : List (Nat × List String))
            else [(c, r.anno)]).find? (fun e => e.1 == c + (j + 1))) = none := by
          by_cases hae : r.anno.isEmpty
          · simp [hae]
          · have hne2 : (c == c + (j + 1)) = false := by
              rw [beq_eq_false_iff_ne]
              omega
            simp [hae, List.find?, hne2]
        rw [List.find?_append, hne]
        simp only [Option.none_or]
        have hR : annoAtR step st (it :: rest) (j + 1) = annoAtR step st' rest j := by
          simp [annoAtR, recipeAt, hstep]
        rw [hR, heq]
        exact ih st' (c + 1) j

/-! ## Per-branch span/token facts -/

theorem map_splitOn_not_empty (f : String → String) (sep : Char) (s : String) :
    (((pySplitOn sep s).map f).isEmpty) = false := by
  cases hsp : pySplitOn sep s with
  | nil => exact absurd hsp (pySplitOn_ne_nil sep s)
  | cons a as => simp

theorem stepTargetPlain_span_iff (item : String) (r : Recipe)
    (h : stepTargetPlain item = some r) : r.spanL.isSome = !r.toks.isEmpty := by
  unfold stepTargetPlain at h
  repeat' split at h
  all_goals try dsimp only at h
  all_goals repeat' split at h
  all_goals cases h <;> simp [map_splitOn_not_empty]

theorem stepTargetSimpleBracket_span_iff (item : String) (r : Recipe)
    (h : stepTargetSimpleBracket item = some r) : r.spanL.isSome = !r.toks.isEmpty := by
  unfold stepTargetSimpleBracket at h
  repeat' split at h
  all_goals try dsimp only at h
  all_goals repeat' split at h
  all_goals cases h <;> simp [map_splitOn_not_empty]

theorem stepTargetComplexLitsA_span_iff (item : String) (r : Recipe)
    (h : stepTargetComplexLitsA item = some r) : r.spanL.isSome = !r.toks.isEmpty := by
  unfold stepTargetComplexLitsA at h
  repeat' split at h
  all_goals cases h <;> simp

theorem stepTargetComplexLitsB_span_iff (item : String) (r : Recipe)
    (h : stepTargetComplexLitsB item = some r) : r.spanL.isSome = !r.toks.isEmpty := by
  unfold stepTargetComplexLitsB at h
  repeat' split at h
  all_goals cases h <;> simp

theorem stepTargetComplexLits_span_iff (item : String) (r : Recipe)
    (h : stepTargetComplexLits item = some r) : r.spanL.isSome = !r.toks.isEmpty := by
  unfold stepTargetComplexLits at h
  cases hA : stepTargetComplexLitsA item with
  | some r0 =>
    rw [hA] at h
    injection h with h
    subst h
    exact stepTargetComplexLitsA_span_iff item r0 hA
  | none =>
    rw [hA] at h
    exact stepTargetComplexLitsB_span_iff item r h

theorem stepTargetComplexRules_span_iff (item : String) (r : Recipe)
    (h : stepTargetComplexRules item = some r) : r.spanL.isSome = !r.toks.isEmpty := by
  unfold stepTargetComplexRules at h
  repeat' split at h
  all_goals try dsimp only at h
  all_goals repeat' split at h
  all_goals cases h <;> simp [map_splitOn_not_empty]

theorem stepTargetComplexBracket_span_iff (item : String) (r : Recipe)
    (h : stepTargetComplexBracket item = some r) : r.spanL.isSome = !r.toks.isEmpty := by
  unfold stepTargetComplexBracket at h
  cases hA : stepTargetComplexLits item with
  | some r0 =>
    rw [hA] at h
    injection h with h
    subst h
    exact stepTargetComplexLits_span_iff item r0 hA
  | none =>
    rw [hA] at h
    exact stepTargetComplexRules_span_iff item r h

/-- In the Target resolver an item writes a span entry exactly when it emits
at least one token. -/
theorem stepTarget_span_iff (item : String) (r : Recipe)
    (h : stepTarget item = some r) : r.spanL.isSome = !r.toks.isEmpty := by
  unfold stepTarget at h
  split at h
  · exact stepTargetPlain_span_iff item r h
  split at h
  · exact stepTargetSimpleBracket_span_iff item r h
  · exact stepTargetComplexBracket_span_iff item r h

theorem stepAchievedRep_span_total (item : String) (r : Recipe)
    (h : stepAchievedRep item = some r) : (r.toks.isEmpty || r.spanL.isSome) = true := by
  unfold stepAchievedRep at h
  repeat' split at h
  all_goals try dsimp only at h
  all_goals repeat' split at h
  all_goals cases h <;> simp

theorem stepAchievedSymMulti_span_total (sl : List String) (item1 : String) (r : Recipe)
    (h : stepAchievedSymMulti sl item1 = some r) :
    (r.toks.isEmpty || r.spanL.isSome) = true := by
  unfold stepAchievedSymMulti at h
  repeat' split at h
  all_goals try dsimp only at h
  all_goals repeat' split at h
  all_goals cases h <;> simp

theorem stepAchievedSymEq_span_total (sl : List String) (item1 : String) (r : Recipe)
    (h : stepAchievedSymEq sl item1 = some r) :
    (r.toks.isEmpty || r.spanL.isSome) = true := by
  unfold stepAchievedSymEq at h
  repeat' split at h
  all_goals try dsimp only at h
  all_goals repeat' split at h
  all_goals cases h <;> simp

theorem stepAchievedSymCore_span_total (sl : List String) (item1 : String) (r : Recipe)
    (h : stepAchievedSymCore sl item1 = some r) :
    (r.toks.isEmpty || r.spanL.isSome) = true := by
  unfold stepAchievedSymCore at h
  split at h
  · exact stepAchievedSymMulti_span_total sl item1 r h
  split at h
  · dsimp only at h
    repeat' split at h
    all_goals cases h <;> simp
  split at h
  · exact stepAchievedSymEq_span_total sl item1 r h
  · cases h <;> simp

theorem stepAchievedSym_span_total (item : String) (r : Recipe)
    (h : stepAchievedSym item = some r) : (r.toks.isEmpty || r.spanL.isSome) = true := by
  unfold stepAchievedSym at h
  exact stepAchievedSymCore_span_total _ _ r h

theorem stepAchievedSimpleBracket_span_total (item : String) (r : Recipe)
    (h : stepAchievedSimpleBracket item = some r) :
    (r.toks.isEmpty || r.spanL.isSome) = true := by
  unfold stepAchievedSimpleBracket at h
  repeat' split at h
  all_goals try dsimp only at h
  all_goals repeat' split at h
  all_goals cases h <;> simp

theorem stepAchievedComplexBracket_span_total (st : AState) (item : String)
    (r : Recipe) (st' : AState)
    (h : stepAchievedComplexBracket st item = some (r, st')) :
    (r.toks.isEmpty || r.spanL.isSome) = true := by
  unfold stepAchievedComplexBracket at h
  repeat' split at h
  all_goals try dsimp only at h
  all_goals repeat' split at h
  all_goals cases h <;> simp

/-- In the Achieved resolver an item that emits tokens always writes a span
entry (the converse fails: see the degenerate repetition counterexample). -/
theorem stepAchieved_span_total (st : AState) (item : String) (r : Recipe) (st' : AState)
    (h : stepAchieved st item = some (r, st')) :
    (r.toks.isEmpty || r.spanL.isSome) = true := by
  unfold stepAchieved at h
  split at h
  · split at h
    · cases h <;> simp
    split at h
    · obtain ⟨hr, _⟩ := mapState_eq _ _ _ _ h
      exact stepAchievedRep_span_total item r hr
    · obtain ⟨hr, _⟩ := mapState_eq _ _ _ _ h
      exact stepAchievedSym_span_total item r hr
  split at h
  · obtain ⟨hr, _⟩ := mapState_eq _ _ _ _ h
    exact stepAchievedSimpleBracket_span_total item r hr
  · exact stepAchievedComplexBracket_span_total st item r st' h

theorem stepOf_span_total (p : Policy) (st : AState) (item : String) (r : Recipe)
    (st' : AState) (h : stepOf p st item = some (r, st')) :
    (r.toks.isEmpty || r.spanL.isSome) = true := by
  cases p with
  | target =>
    simp only [stepOf] at h
    obtain ⟨hr, _⟩ := mapState_eq _ _ _ _ h
    have hiff := stepTarget_span_iff item r hr
    rw [hiff]
    cases r.toks.isEmpty <;> simp
  | achieved => exact stepAchieved_span_total st item r st' h

/-! ## C7: span keys are the lexical positions -/

/-- C7: for both policies, the Span Map keys of a successful run are exactly
the ordinal positions (rendered `"sSpan" + i` by `renderSpanKey`) of the
items whose resolution writes a span — independent of the policy's token
expansion — and every key is a position inside the input list. -/
theorem c7_span_keys (p : Policy) (l : List String) (m : Maps)
    (h : runPolicy p l = some m) :
    m.span.map Prod.fst = spanKeys (stepOf p) ⟨none, none⟩ l 0 ∧
      ∀ k ∈ m.span.map Prod.fst, k < l.length := by
  have hk := runGo_span_keys (stepOf p) l 0 0 ⟨none, none⟩ ⟨[], [], []⟩ m h
  have hk' : m.span.map Prod.fst = spanKeys (stepOf p) ⟨none, none⟩ l 0 := by simpa using hk
  refine ⟨hk', ?_⟩
  intro k hkm
  rw [hk'] at hkm
  have hlt := spanKeys_lt (stepOf p) l ⟨none, none⟩ 0 k hkm
  omega

/-- Witness for `c7_span_keys` on a concrete Target run. -/
theorem c7_witness :
    (⟨[(0, "Er"), (1, "war")], [(0, SpanV.one 0), (2, SpanV.one 1)],
      ([] : List (Nat × List String))⟩ : Maps).span.map Prod.fst =
      spanKeys (stepOf .target) ⟨none, none⟩ ["Er", "[sahen §]", "war"] 0 ∧
    ∀ k ∈ (⟨[(0, "Er"), (1, "war")], [(0, SpanV.one 0), (2, SpanV.one 1)],
      ([] : List (Nat × List String))⟩ : Maps).span.map Prod.fst,
      k < (["Er", "[sahen §]", "war"] : List String).length :=
  c7_span_keys .target ["Er", "[sahen §]", "war"] _ (by decide)

/-! ## C8: span count = items − zero-output items -/

/-- The number of zero-output items along the thread (a failing step aborts
the run, so the count stops there). -/
def zeroThread (step : AState → String → Option (Recipe × AState)) :
    AState → List String → Nat
  | _, [] => 0
  | st, it :: rest =>
    match step st it with
    | some (r, st') => (if r.toks.isEmpty then 1 else 0) + zeroThread step st' rest
    | none => 0

/-- Number of zero-output items of the list under policy `p`. -/
def zeroOutCount (p : Policy) (l : List String) : Nat :=
  zeroThread (stepOf p) ⟨none, none⟩ l

/-- No item along the thread resolves to a span entry with zero output tokens. -/
def goodThread (step : AState → String → Option (Recipe × AState)) :
    AState → List String → Bool
  | _, [] => true
  | st, it :: rest =>
    match step st it with
    | some (r, st') => (!r.spanL.isSome || !r.toks.isEmpty) && goodThread step st' rest
    | none => true

/-- No item of the list resolves to a span entry with zero output tokens. -/
def goodSpanRun (p : Policy) (l : List String) : Bool :=
  goodThread (stepOf p) ⟨none, none⟩ l

theorem zeroThread_le (step : AState → String → Option (Recipe × AState)) :
    ∀ (l : List String) (st : AState), zeroThread step st l ≤ l.length := by
  intro l
  induction l with
  | nil => intro st; simp [zeroThread]
  | cons it rest ih =>
    intro st
    cases hstep : step st it with
    | none => simp [zeroThread, hstep]
    | some rs =>
      obtain ⟨r, st'⟩ := rs
      have := ih st'
      simp only [zeroThread, hstep, List.length_cons]
      by_cases he : r.toks.isEmpty <;> simp [he] <;> omega

theorem spanKeys_length_of_iff (step : AState → String → Option (Recipe × AState))
    (htot : ∀ (s : AState) (it : String) (r : Recipe) (s' : AState),
      step s it = some (r, s') → (r.toks.isEmpty || r.spanL.isSome) = true) :
    ∀ (l : List String) (st : AState) (c : Nat),
      allSome step st l = true → goodThread step st l = true →
      (spanKeys step st l c).length = l.length - zeroThread step st l := by
  intro l
  induction l with
  | nil => intro st c _ _; simp [spanKeys, zeroThread]
  | cons it rest ih =>
    intro st c hall hgood
    cases hstep : step st it with
    | none => simp [allSome, hstep] at hall
    | some rs =>
      obtain ⟨r, st'⟩ := rs
      have hall' : allSome step st' rest = true := by simpa [allSome, hstep] using hall
      have hgood2 : ((!r.spanL.isSome || !r.toks.isEmpty) = true) ∧
          goodThread step st' rest = true := by
        simpa [goodThread, hstep, Bool.and_eq_true] using hgood
      have hrest := ih st' (c + 1) hall' hgood2.2
      have hle := zeroThread_le step rest st'
      have htotr := htot st it r st' hstep
      simp only [spanKeys, zeroThread, hstep, List.length_append, List.length_cons]
      cases he : r.toks.isEmpty with
      | true =>
        have hsp : r.spanL.isSome = false := by
          have hg := hgood2.1
          rw [he] at hg
          simpa using hg
        simp only [hsp, he]
        simp only [Bool.false_eq_true, if_false, List.length_nil, if_true]
        omega
      | false =>
        have hsp : r.spanL.isSome = true := by
          rw [he] at htotr
          simpa using htotr
        simp only [hsp, he]
        simp only [Bool.false_eq_true, if_false, if_true, List.length_singleton]
        omega

/-- C8 amended.  First part: under the Target policy every item's recipe
writes a span iff it emits tokens (so the count law below applies
unconditionally to Target).  Second part: for both policies, whenever no
item writes a span with zero output tokens (the degenerate Achieved
repetition branch of the counterexample), the number of Span entries equals
the number of lexical tokens minus the number of zero-output items. -/
theorem c8_amended :
    (∀ l : List String, goodSpanRun .target l = true) ∧
    (∀ (p : Policy) (l : List String) (m : Maps), runPolicy p l = some m →
      goodSpanRun p l = true →
      m.span.length = l.length - zeroOutCount p l) := by
  constructor
  · intro l
    have hgen : ∀ (l : List String) (st : AState),
        goodThread (stepOf .target) st l = true := by
      intro l
      induction l with
      | nil => intro st; rfl
      | cons it rest ih =>
        intro st
        cases hstep : stepOf .target st it with
        | none => simp [goodThread, hstep]
        | some rs =>
          obtain ⟨r, st'⟩ := rs
          have hstep' := hstep
          simp only [stepOf] at hstep'
          obtain ⟨hr, _⟩ := mapState_eq _ _ _ _ hstep'
          have hiff := stepTarget_span_iff it r hr
          simp only [goodThread, hstep, Bool.and_eq_true]
          refine ⟨?_, ih st'⟩
          rw [hiff]
          cases r.toks.isEmpty <;> simp
    exact hgen l ⟨none, none⟩
  · intro p l m hrun hgood
    have hk := runGo_span_keys (stepOf p) l 0 0 ⟨none, none⟩ ⟨[], [], []⟩ m hrun
    have hk' : m.span.map Prod.fst = spanKeys (stepOf p) ⟨none, none⟩ l 0 := by
      simpa using hk
    have hlen : m.span.length = (spanKeys (stepOf p) ⟨none, none⟩ l 0).length := by
      rw [← hk', List.length_map]
    have hall := runGo_allSome (stepOf p) l 0 0 ⟨none, none⟩ ⟨[], [], []⟩ m hrun
    rw [hlen, spanKeys_length_of_iff (stepOf p)
      (fun s it r s' hs => stepOf_span_total p s it r s' hs) l ⟨none, none⟩ 0 hall hgood]
    rfl

/-- C8 counterexample: on the Achieved input `["x{2}02"]` the degenerate
repetition branch records a span entry whose token list is empty (the
repetition count parses as 0), so the Span-count law fails: the Span Map has
one entry but the formula demands `1 - 1 = 0`. -/
theorem c8_counterexample :
    runPolicy .achieved ["x{2}02"] =
      some ⟨[], [(0, SpanV.many [])], [(0, ["{0}"])]⟩ ∧
    ¬ ((⟨[], [(0, SpanV.many [])], [(0, ["{0}"])]⟩ : Maps).span.length =
        (["x{2}02"] : List String).length - zeroOutCount .achieved ["x{2}02"]) := by
  constructor
  · decide
  · decide

/-- Witness for `c8_amended` on a concrete Target run with one deletion. -/
theorem c8_witness :
    (⟨[(0, "Er"), (1, "war")], [(0, SpanV.one 0), (2, SpanV.one 1)],
      ([] : List (Nat × List String))⟩ : Maps).span.length =
      (["Er", "{N}", "war"] : List String).length - zeroOutCount .target ["Er", "{N}", "war"] :=
  c8_amended.2 .target ["Er", "{N}", "war"] _ (by decide)
    (c8_amended.1 ["Er", "{N}", "war"])

/-! ## C3: locality of resolution -/

/-- The annotation list the run attaches to position `i`. -/
def annoAt (m : Maps) (i : Nat) : Option (List String) :=
  (m.anno.find? (fun e => e.1 == i)).map Prod.snd

/-- Does the run create a span entry at position `i`? -/
def spanPresent (m : Maps) (i : Nat) : Bool :=
  (m.span.find? (fun e => e.1 == i)).isSome

/-- Is the item at position `i` (if any) free of the stale-locals read? -/
def notStaleAt (l : List String) (i : Nat) : Bool :=
  match l.get? i with
  | some it => !usesStaleLocals it
  | none => true

/-- The output token surfaces the run produces at position `i`. -/
def surfacesAt (p : Policy) (l : List String) (i : Nat) : Option (List String) :=
  (recipeAt (stepOf p) ⟨none, none⟩ l i).map Recipe.toks

theorem spanKeys_mem (step : AState → String → Option (Recipe × AState)) :
    ∀ (l : List String) (st : AState) (c j : Nat),
      (c + j ∈ spanKeys step st l c) ↔ spanAtB step st l j = true := by
  intro l
  induction l with
  | nil =>
    intro st c j
    simp [spanKeys, spanAtB, recipeAt]
  | cons it rest ih =>
    intro st c j
    cases hstep : step st it with
    | none => cases j <;> simp [spanKeys, spanAtB, recipeAt, hstep]
    | some rs =>
      obtain ⟨r, st'⟩ := rs
      cases j with
      | zero =>
        simp only [Nat.add_zero, spanKeys, hstep, List.mem_append]
        constructor
        · intro hk
          rcases hk with hk | hk
          · by_cases hsp : r.spanL.isSome
            · simp [spanAtB, recipeAt, hstep, hsp]
            · simp [hsp] at hk
          · have := spanKeys_ge step rest st' (c + 1) c hk
            omega
        · intro hb
          left
          have hsp : r.spanL.isSome = true := by
            simpa [spanAtB, recipeAt, hstep] using hb
          simp [hsp]
      | succ j =>
        have heq : c + (j + 1) = c + 1 + j := by omega
        have hR : spanAtB step st (it :: rest) (j + 1) = spanAtB step st' rest j := by
          simp [spanAtB, recipeAt, hstep]
        rw [hR]
        simp only [spanKeys, hstep, List.mem_append]
        constructor
        · intro hk
          rcases hk with hk | hk
          · by_cases hsp : r.spanL.isSome <;> simp [hsp] at hk
          · rw [heq] at hk
            exact (ih st' (c + 1) j).mp hk
        · intro hb
          right
          rw [heq]
          exact (ih st' (c + 1) j).mpr hb

/-- In a successful run the annotation attached to position `i` is the one
of the thread's recipe at `i`. -/
theorem annoAt_run (p : Policy) (l : List String) (m : Maps)
    (h : runPolicy p l = some m) (i : Nat) :
    annoAt m i = annoAtR (stepOf p) ⟨none, none⟩ l i := by
  unfold annoAt
  have ha := runGo_anno (stepOf p) l 0 0 ⟨none, none⟩ ⟨[], [], []⟩ m h
  rw [ha]
  dsimp only
  rw [List.nil_append]
  have hf := annoEntries_find (stepOf p) l ⟨none, none⟩ 0 i
  simp only [Nat.zero_add] at hf
  exact hf

/-- In a successful run span presence at position `i` is that of the
thread's recipe at `i`. -/
theorem spanPresent_run (p : Policy) (l : List String) (m : Maps)
    (h : runPolicy p l = some m) (i : Nat) :
    spanPresent m i = spanAtB (stepOf p) ⟨none, none⟩ l i := by
  have hk := runGo_span_keys (stepOf p) l 0 0 ⟨none, none⟩ ⟨[], [], []⟩ m h
  have hk' : m.span.map Prod.fst = spanKeys (stepOf p) ⟨none, none⟩ l 0 := by
    simpa using hk
  have hiff1 : spanPresent m i = true ↔ i ∈ m.span.map Prod.fst := by
    unfold spanPresent
    rw [List.find?_isSome]
    constructor
    · rintro ⟨e, he, hp⟩
      have hei : e.1 = i := by simpa using hp
      exact hei ▸ List.mem_map_of_mem _ he
    · intro hm
      obtain ⟨e, he, hei⟩ := List.mem_map.mp hm
      exact ⟨e, he, by simp [hei]⟩
  have hiff2 : (i ∈ spanKeys (stepOf p) ⟨none, none⟩ l 0) ↔
      spanAtB (stepOf p) ⟨none, none⟩ l i = true := by
    have hsm := spanKeys_mem (stepOf p) l ⟨none, none⟩ 0 i
    simpa using hsm
  cases hb : spanAtB (stepOf p) ⟨none, none⟩ l i with
  | false =>
    cases hsp : spanPresent m i with
    | false => rfl
    | true =>
      exfalso
      have hmem := hiff1.mp hsp
      rw [hk'] at hmem
      have := hiff2.mp hmem
      rw [hb] at this
      exact Bool.false_ne_true this
  | true =>
    cases hsp : spanPresent m i with
    | false =>
      exfalso
      have hmem := hiff2.mpr hb
      rw [← hk'] at hmem
      have := hiff1.mpr hmem
      rw [hsp] at this
      exact Bool.false_ne_true this
    | true => rfl

/-- Recipes of the complicated bracketed cases are state-independent except
in the stale `§[` branch, where the annotation and the span shape are still
determined by the item alone. -/
theorem stepAchievedComplexBracket_invariant (item : String) (st1 st2 : AState)
    (r1 r2 : Recipe) (o1 o2 : AState)
    (hbr : pyIn "[" item = true)
    (hsh : ¬(countChar item '[' = 1 ∧ item.data.head? = some '[' ∧
      item.data.getLast? = some ']'))
    (h1 : stepAchievedComplexBracket st1 item = some (r1, o1))
    (h2 : stepAchievedComplexBracket st2 item = some (r2, o2)) :
    r1.anno = r2.anno ∧ r1.spanL = r2.spanL ∧
      (usesStaleLocals item = false → r1 = r2) := by
  unfold stepAchievedComplexBracket at h1 h2
  by_cases hpg : ¬pyIn "§" item = true
  · rw [if_pos hpg] at h1 h2
    cases hm : (pySplitOn '_' item).mapM
        (fun i => if pyIn " " i then ((pySplitWs i).get? 0).map strTail else some i) with
    | none =>
      rw [hm] at h1
      exact absurd h1 (by simp)
    | some pieces =>
      rw [hm] at h1 h2
      injection h1 with e1
      injection h2 with e2
      injection e1 with er1 eo1
      injection e2 with er2 eo2
      subst er1
      subst er2
      exact ⟨rfl, rfl, fun _ => rfl⟩
  · rw [if_neg hpg] at h1 h2
    have hpg' : pyIn "§" item = true := by
      revert hpg
      cases pyIn "§" item <;> simp
    by_cases hpb : pyIn "§[" item = true
    · rw [if_pos hpb] at h1 h2
      by_cases hre : item = "Rein§[§ kommt]"
      · rw [if_pos hre] at h1 h2
        injection h1 with e1
        injection h2 with e2
        injection e1 with er1 eo1
        injection e2 with er2 eo2
        subst er1
        subst er2
        exact ⟨rfl, rfl, fun _ => rfl⟩
      · rw [if_neg hre] at h1 h2
        by_cases hcr : item = "Criminal§[Polizei polizist]"
        · rw [if_pos hcr] at h1 h2
          injection h1 with e1
          injection h2 with e2
          injection e1 with er1 eo1
          injection e2 with er2 eo2
          subst er1
          subst er2
          exact ⟨rfl, rfl, fun _ => rfl⟩
        · rw [if_neg hcr] at h1 h2
          have hstale : usesStaleLocals item = true := by
            simp [usesStaleLocals, hbr, hpg', hpb, hsh, hre, hcr]
          cases hia1 : st1.ia with
          | none =>
            cases hib1 : st1.ib with
            | none => rw [hia1, hib1] at h1; exact absurd h1 (by simp)
            | some b1 => rw [hia1, hib1] at h1; exact absurd h1 (by simp)
          | some a1 =>
            cases hib1 : st1.ib with
            | none => rw [hia1, hib1] at h1; exact absurd h1 (by simp)
            | some b1 =>
              cases hia2 : st2.ia with
              | none =>
                cases hib2 : st2.ib with
                | none => rw [hia2, hib2] at h2; exact absurd h2 (by simp)
                | some b2 => rw [hia2, hib2] at h2; exact absurd h2 (by simp)
              | some a2 =>
                cases hib2 : st2.ib with
                | none => rw [hia2, hib2] at h2; exact absurd h2 (by simp)
                | some b2 =>
                  rw [hia1, hib1] at h1
                  rw [hia2, hib2] at h2
                  injection h1 with e1
                  injection h2 with e2
                  injection e1 with er1 eo1
                  injection e2 with er2 eo2
                  subst er1
                  subst er2
                  refine ⟨rfl, rfl, fun hf => ?_⟩
                  rw [hstale] at hf
                  exact absurd hf (by decide)
    · rw [if_neg hpb] at h1 h2
      dsimp only at h1 h2
      injection h1 with e1
      injection h2 with e2
      injection e1 with er1 eo1
      injection e2 with er2 eo2
      subst er1
      subst er2
      exact ⟨rfl, rfl, fun _ => rfl⟩

/-- Resolution of an Achieved item depends on the persisting locals only
through the stale `§[` branch: the annotation and the span shape are always
determined by the item alone, and so is the whole recipe whenever the item
does not read the stale locals. -/
theorem stepAchieved_invariant (item : String) (st1 st2 : AState)
    (r1 r2 : Recipe) (o1 o2 : AState)
    (h1 : stepAchieved st1 item = some (r1, o1))
    (h2 : stepAchieved st2 item = some (r2, o2)) :
    r1.anno = r2.anno ∧ r1.spanL = r2.spanL ∧
      (usesStaleLocals item = false → r1 = r2) := by
  unfold stepAchieved at h1 h2
  by_cases hbr : pyIn "[" item = false
  · rw [if_pos hbr] at h1 h2
    by_cases heq : item = "={N}"
    · rw [if_pos heq] at h1 h2
      injection h1 with e1
      injection h2 with e2
      injection e1 with er1 eo1
      injection e2 with er2 eo2
      subst er1
      subst er2
      exact ⟨rfl, rfl, fun _ => rfl⟩
    · rw [if_neg heq] at h1 h2
      by_cases hrep : pyIn "{2}" item ∨ pyIn "{3}" item ∨ pyIn "{4}" item
      · rw [if_pos hrep] at h1 h2
        obtain ⟨hr1, _⟩ := mapState_eq _ _ _ _ h1
        obtain ⟨hr2, _⟩ := mapState_eq _ _ _ _ h2
        rw [hr1] at hr2
        injection hr2 with hrr
        subst hrr
        exact ⟨rfl, rfl, fun _ => rfl⟩
      · rw [if_neg hrep] at h1 h2
        obtain ⟨hr1, _⟩ := mapState_eq _ _ _ _ h1
        obtain ⟨hr2, _⟩ := mapState_eq _ _ _ _ h2
        rw [hr1] at hr2
        injection hr2 with hrr
        subst hrr
        exact ⟨rfl, rfl, fun _ => rfl⟩
  · rw [if_neg hbr] at h1 h2
    by_cases hsh : countChar item '[' = 1 ∧ item.data.head? = some '[' ∧
        item.data.getLast? = some ']'
    · rw [if_pos hsh] at h1 h2
      obtain ⟨hr1, _⟩ := mapState_eq _ _ _ _ h1
      obtain ⟨hr2, _⟩ := mapState_eq _ _ _ _ h2
      rw [hr1] at hr2
      injection hr2 with hrr
      subst hrr
      exact ⟨rfl, rfl, fun _ => rfl⟩
    · rw [if_neg hsh] at h1 h2
      have hbr' : pyIn "[" item = true := by
        revert hbr
        cases pyIn "[" item <;> simp
      exact stepAchievedComplexBracket_invariant item st1 st2 r1 r2 o1 o2 hbr' hsh h1 h2

theorem stepOf_invariant (p : Policy) (item : String) (st1 st2 : AState)
    (r1 r2 : Recipe) (o1 o2 : AState)
    (h1 : stepOf p st1 item = some (r1, o1))
    (h2 : stepOf p st2 item = some (r2, o2)) :
    r1.anno = r2.anno ∧ r1.spanL = r2.spanL ∧
      (usesStaleLocals item = false → r1 = r2) := by
  cases p with
  | target =>
    simp only [stepOf] at h1 h2
    obtain ⟨hr1, _⟩ := mapState_eq _ _ _ _ h1
    obtain ⟨hr2, _⟩ := mapState_eq _ _ _ _ h2
    rw [hr1] at hr2
    injection hr2 with hrr
    subst hrr
    exact ⟨rfl, rfl, fun _ => rfl⟩
  | achieved => exact stepAchieved_invariant item st1 st2 r1 r2 o1 o2 h1 h2

/-- C3 corrected: resolution is local for the annotation list and the span
presence at every position, under both policies.  The output token surfaces
at position `i` are also a function of the item at `i` alone, unless that
item is a non-literal `§[`-bracketed Achieved item: such an item is resolved
from the `item_a`/`item_b` locals left over by earlier iterations
(target.py lines 1175-1189), so its surfaces may depend on preceding items
(see the counterexample). -/
theorem c3_amended (p : Policy) (l1 l2 : List String) (i : Nat)
    (hi : l1.get? i = l2.get? i) (m1 m2 : Maps)
    (h1 : runPolicy p l1 = some m1) (h2 : runPolicy p l2 = some m2) :
    annoAt m1 i = annoAt m2 i ∧ spanPresent m1 i = spanPresent m2 i ∧
      (notStaleAt l1 i = true → surfacesAt p l1 i = surfacesAt p l2 i) := by
  have hall1 := runGo_allSome (stepOf p) l1 0 0 ⟨none, none⟩ ⟨[], [], []⟩ m1 h1
  have hall2 := runGo_allSome (stepOf p) l2 0 0 ⟨none, none⟩ ⟨[], [], []⟩ m2 h2
  cases hget : l1.get? i with
  | none =>
    have hget2 : l2.get? i = none := by rw [← hi]; exact hget
    have hr1 := recipeAt_none (stepOf p) l1 ⟨none, none⟩ i hget
    have hr2 := recipeAt_none (stepOf p) l2 ⟨none, none⟩ i hget2
    refine ⟨?_, ?_, fun _ => ?_⟩
    · rw [annoAt_run p l1 m1 h1 i, annoAt_run p l2 m2 h2 i]
      simp [annoAtR, hr1, hr2]
    · rw [spanPresent_run p l1 m1 h1 i, spanPresent_run p l2 m2 h2 i]
      simp [spanAtB, hr1, hr2]
    · simp [surfacesAt, hr1, hr2]
  | some it =>
    have hget2 : l2.get? i = some it := by rw [← hi]; exact hget
    obtain ⟨r1, hr1⟩ := allSome_recipeAt (stepOf p) l1 ⟨none, none⟩ i it hall1 hget
    obtain ⟨r2, hr2⟩ := allSome_recipeAt (stepOf p) l2 ⟨none, none⟩ i it hall2 hget2
    obtain ⟨s1, s1', hs1⟩ := recipeAt_step (stepOf p) l1 ⟨none, none⟩ i it r1 hget hr1
    obtain ⟨s2, s2', hs2⟩ := recipeAt_step (stepOf p) l2 ⟨none, none⟩ i it r2 hget2 hr2
    obtain ⟨hanno, hspan, hful⟩ := stepOf_invariant p it s1 s2 r1 r2 s1' s2' hs1 hs2
    refine ⟨?_, ?_, fun hns => ?_⟩
    · rw [annoAt_run p l1 m1 h1 i, annoAt_run p l2 m2 h2 i]
      simp [annoAtR, hr1, hr2, hanno]
    · rw [spanPresent_run p l1 m1 h1 i, spanPresent_run p l2 m2 h2 i]
      simp [spanAtB, hr1, hr2, hspan]
    · have hnst : usesStaleLocals it = false := by
        simp only [notStaleAt] at hns
        rw [hget] at hns
        simpa using hns
      have hfe := hful hnst
      simp [surfacesAt, hr1, hr2, hfe]

/-- C3 counterexample: the non-literal `§[` item `"X§[a b]"` at position 1
is resolved with the `item_a`/`item_b` values left over from position 0, so
two Achieved runs agreeing at position 1 both succeed yet produce different
output token surfaces there (`["Rein", "fehlendeswort:kommt"]` versus
`["Criminal", "Polizei"]`) — resolution is not a function of the item text
and the policy alone. -/
theorem c3_counterexample :
    (["Rein§[§ kommt]", "X§[a b]"] : List String).get? 1 =
      (["Criminal§[Polizei polizist]", "X§[a b]"] : List String).get? 1 ∧
    runPolicy .achieved ["Rein§[§ kommt]", "X§[a b]"] =
      some ⟨[(0, "Rein"), (1, "fehlendeswort:kommt"), (2, "Rein"),
             (3, "fehlendeswort:kommt")],
            [(0, SpanV.many [0, 1]), (1, SpanV.many [2, 3])],
            [(0, ["Rein§[§ kommt]"]), (1, ["X§[a b]"])]⟩ ∧
    runPolicy .achieved ["Criminal§[Polizei polizist]", "X§[a b]"] =
      some ⟨[(0, "Criminal"), (1, "Polizei"), (2, "Criminal"), (3, "Polizei")],
            [(0, SpanV.many [0, 1]), (1, SpanV.many [2, 3])],
            [(0, ["Criminal§[Polizei polizist]"]), (1, ["X§[a b]"])]⟩ ∧
    surfacesAt .achieved ["Rein§[§ kommt]", "X§[a b]"] 1 =
      some ["Rein", "fehlendeswort:kommt"] ∧
    surfacesAt .achieved ["Criminal§[Polizei polizist]", "X§[a b]"] 1 =
      some ["Criminal", "Polizei"] ∧
    ¬ surfacesAt .achieved ["Rein§[§ kommt]", "X§[a b]"] 1 =
        surfacesAt .achieved ["Criminal§[Polizei polizist]", "X§[a b]"] 1 := by
  refine ⟨by decide, by decide, by decide, by decide, by decide, by decide⟩

/-- Witness for `c3_amended`: two Target runs sharing `"und{2}"` at
position 1 under different neighbors. -/
theorem c3_witness :
    annoAt (⟨[(0, "Er"), (1, "und")], [(0, SpanV.one 0), (1, SpanV.one 1)],
        [(1, ["{2}"])]⟩ : Maps) 1 =
      annoAt (⟨[(0, "war"), (1, "und")], [(0, SpanV.one 0), (1, SpanV.one 1)],
        [(1, ["{2}"])]⟩ : Maps) 1 ∧
    spanPresent (⟨[(0, "Er"), (1, "und")], [(0, SpanV.one 0), (1, SpanV.one 1)],
        [(1, ["{2}"])]⟩ : Maps) 1 =
      spanPresent (⟨[(0, "war"), (1, "und")], [(0, SpanV.one 0), (1, SpanV.one 1)],
        [(1, ["{2}"])]⟩ : Maps) 1 ∧
    surfacesAt .target ["Er", "und{2}"] 1 = surfacesAt .target ["war", "und{2}"] 1 := by
  obtain ⟨hA, hS, hT⟩ := c3_amended .target ["Er", "und{2}"] ["war", "und{2}"] 1 (by decide)
    ⟨[(0, "Er"), (1, "und")], [(0, SpanV.one 0), (1, SpanV.one 1)], [(1, ["{2}"])]⟩
    ⟨[(0, "war"), (1, "und")], [(0, SpanV.one 0), (1, SpanV.one 1)], [(1, ["{2}"])]⟩
    (by decide) (by decide)
  exact ⟨hA, hS, hT (by decide)⟩

/-! ## C2, C5, C6: concrete behaviors -/

/-- C2: the end-to-end Target scenario.  On
`["Er","war","glücklich","und{2}","war","in_der","Bücherei"]` the resolver
returns exactly the Token, Span and Annotation maps of the spec (string keys
restored by `renderMaps`). -/
theorem c2_end_to_end :
    (runPolicy .target
        ["Er", "war", "glücklich", "und{2}", "war", "in_der", "Bücherei"]).map
      renderMaps =
    some ⟨[("tok0", "Er"), ("tok1", "war"), ("tok2", "glücklich"), ("tok3", "und"),
           ("tok4", "war"), ("tok5", "in"), ("tok6", "der"), ("tok7", "Bücherei")],
          [("sSpan0", RSpanV.one "tok0"), ("sSpan1", RSpanV.one "tok1"),
           ("sSpan2", RSpanV.one "tok2"), ("sSpan3", RSpanV.one "tok3"),
           ("sSpan4", RSpanV.one "tok4"), ("sSpan5", RSpanV.many ["tok5", "tok6"]),
           ("sSpan6", RSpanV.one "tok7")],
          [("sSpan3", ["{2}"]), ("sSpan5", ["_"])]⟩ := by decide

/-- C5 amended: only under the Target policy does a bare tag `{N}`/`{F}`/`{G}`
contribute zero tokens, decrement the token-id allocation and create no span
of its own: the recipes are empty with delta `-1`, and in
`["Er","{N}","war"]` the surrounding tokens get the contiguous ids 0 and 1
while the spans keep their positional keys 0 and 2. -/
theorem c5_amended :
    stepTarget "{N}" = some ⟨[], none, [], -1⟩ ∧
    stepTarget "{F}" = some ⟨[], none, [], -1⟩ ∧
    stepTarget "{G}" = some ⟨[], none, [], -1⟩ ∧
    runPolicy .target ["Er", "{N}", "war"] =
      some ⟨[(0, "Er"), (1, "war")], [(0, SpanV.one 0), (2, SpanV.one 1)], []⟩ := by
  refine ⟨by decide, by decide, by decide, by decide⟩

/-- C5 counterexample: under the Achieved policy the bare tag `{N}` does
not vanish — the symbol machinery normalizes it to the empty string and
emits an empty-string token with its own span and annotation, and the
counter is not decremented. -/
theorem c5_counterexample :
    runPolicy .achieved ["{N}"] =
      some ⟨[(0, "")], [(0, SpanV.one 0)], [(0, ["{N}"])]⟩ ∧
    stepAchieved ⟨none, none⟩ "{N}" =
      some (⟨[""], some false, ["{N}"], 0⟩, ⟨none, none⟩) ∧
    ¬ stepAchieved ⟨none, none⟩ "{N}" = some (⟨[], none, [], -1⟩, ⟨none, none⟩) := by
  refine ⟨by decide, by decide, by decide⟩

/-- C6: `"und{2}"` resolves under Achieved to two tokens `"und" "und"`, one
span listing both ids and annotation `["{2}"]`; under Target to a single
token `"und"` with annotation `["{2}"]`. -/
theorem c6_repetition :
    runPolicy .achieved ["und{2}"] =
      some ⟨[(0, "und"), (1, "und")], [(0, SpanV.many [0, 1])], [(0, ["{2}"])]⟩ ∧
    runPolicy .target ["und{2}"] =
      some ⟨[(0, "und")], [(0, SpanV.one 0)], [(0, ["{2}"])]⟩ := by
  refine ⟨by decide, by decide⟩

/-! ## C4: bracketed deletions `[a §]` -/

theorem splitWsGo_no_ws (xs : List Char) (hxs : ∀ c ∈ xs, c.isWhitespace = false) :
    ∀ (cur ys : List Char), splitWsGo cur (xs ++ ys) = splitWsGo (xs.reverse ++ cur) ys := by
  induction xs with
  | nil => intro cur ys; simp
  | cons c r ih =>
    intro cur ys
    have hc : c.isWhitespace = false := hxs c (by simp)
    have hr : ∀ x ∈ r, x.isWhitespace = false := fun x hx => hxs x (by simp [hx])
    simp only [List.cons_append, splitWsGo, hc, Bool.false_eq_true, if_false, List.append_eq]
    rw [ih hr (c :: cur) ys]
    congr 1
    simp [List.reverse_cons, List.append_assoc]

theorem splitWsGo_ws_cons (cur : List Char) (hcur : cur.isEmpty = false) (c : Char)
    (hc : c.isWhitespace = true) (ys : List Char) :
    splitWsGo cur (c :: ys) = cur.reverse :: splitWsGo [] ys := by
  simp only [splitWsGo, hc, hcur]
  simp

/-- C4 amended: the zero-token deletion law for `[a §]` holds under the
Target policy (Achieved keeps the extraneous word: see the counterexample).
For every word `a` without whitespace or brackets, the Target resolution of
`"[a §]"` contributes zero tokens, writes no span, and decrements the
counter by one; consequently in `["Er", "[sahen §]", "war"]` the token id
following the deletion is exactly one greater than the last id emitted
before it, while the span keys keep their positions 0 and 2. -/
theorem c4_amended (a : String)
    (ha : a.data.all (fun c => !c.isWhitespace && !(c = '[') && !(c = ']')) = true) :
    stepTarget ("[" ++ a ++ " §]") = some ⟨[], none, [], -1⟩ ∧
    runPolicy .target ["Er", "[sahen §]", "war"] =
      some ⟨[(0, "Er"), (1, "war")], [(0, SpanV.one 0), (2, SpanV.one 1)], []⟩ := by
  constructor
  case right => decide
  case left =>
    have hall := List.all_eq_true.mp ha
    have hnoWs : ∀ c ∈ a.data, c.isWhitespace = false := by
      intro c hc
      have hx := hall c hc
      simp at hx
      exact hx.1.1
    have hnoOb : '[' ∉ a.data := by
      intro hc
      have hx := hall _ hc
      simp at hx
    have hdata : ("[" ++ a ++ " §]").data = '[' :: (a.data ++ [' ', '§', ']']) := by
      rw [String.data_append, String.data_append]
      rfl
    have hin : pyIn "[" ("[" ++ a ++ " §]") = true := by
      unfold pyIn
      rw [hdata]
      simp [isSubL, List.isPrefixOf]
    have hcount : countChar ("[" ++ a ++ " §]") '[' = 1 := by
      unfold countChar
      rw [hdata]
      rw [List.count_cons, List.count_append]
      have h0 : a.data.count '[' = 0 := List.count_eq_zero.mpr hnoOb
      simp [h0, List.count_cons]
    have hhead : ("[" ++ a ++ " §]").data.head? = some '[' := by rw [hdata]; rfl
    have hlast : ("[" ++ a ++ " §]").data.getLast? = some ']' := by
      rw [hdata]
      rw [show '[' :: (a.data ++ [' ', '§', ']']) = ('[' :: a.data) ++ [' ', '§', ']'] from
        by simp]
      rw [List.getLast?_append]
      rfl
    have hparts : pySplitWs ("[" ++ a ++ " §]") = [⟨'[' :: a.data⟩, ⟨['§', ']']⟩] := by
      unfold pySplitWs
      rw [hdata]
      rw [show '[' :: (a.data ++ [' ', '§', ']']) =
          ('[' :: a.data) ++ (' ' :: '§' :: ']' :: []) from by simp]
      rw [splitWsGo_no_ws ('[' :: a.data) (by
        intro c hc
        rcases List.mem_cons.mp hc with h | h
        · subst h; decide
        · exact hnoWs c h) [] (' ' :: '§' :: ']' :: [])]
      rw [show (('[' :: a.data).reverse ++ [] : List Char) = a.data.reverse ++ ['['] from
        by simp]
      rw [splitWsGo_ws_cons (a.data.reverse ++ ['[']) (by simp) ' ' (by decide)]
      rw [show splitWsGo [] ('§' :: ']' :: []) = [['§', ']']] from by decide]
      simp
    unfold stepTarget
    rw [hin]
    rw [if_neg (by simp)]
    rw [if_pos (by exact ⟨hcount, hhead, hlast⟩)]
    unfold stepTargetSimpleBracket
    rw [hparts]
    simp only [List.get?]
    rw [if_pos (by decide)]

/-- C4 counterexample: under the Achieved policy `"[sahen §]"` does not
vanish — the extraneous insertion is kept as the token `"sahen"` with a
span, so the claim's "for both policies" fails. -/
theorem c4_counterexample :
    runPolicy .achieved ["[sahen §]"] =
      some ⟨[(0, "sahen")], [(0, SpanV.one 0)], [(0, ["[sahen §]"])]⟩ ∧
    ¬ stepAchieved ⟨none, none⟩ "[sahen §]" =
        some (⟨[], none, [], -1⟩, ⟨none, none⟩) := by
  refine ⟨by decide, by decide⟩

/-- Witness for `c4_amended` at `a = "sahen"`. -/
theorem c4_witness :
    stepTarget ("[" ++ "sahen" ++ " §]") = some ⟨[], none, [], -1⟩ ∧
    runPolicy .target ["Er", "[sahen §]", "war"] =
      some ⟨[(0, "Er"), (1, "war")], [(0, SpanV.one 0), (2, SpanV.one 1)], []⟩ :=
  c4_amended "sahen" (by decide)
